import Mathlib

/-!
# Verification development for `bianjieai/cosmos-sdk`

Shallow embedding of

* `x/distribution/types/types.pb.go`: the protobuf codec of `MsgSetWithdrawAddress`
  (`Size`, `Marshal`, `MarshalToSizedBuffer`, `encodeVarintTypes`, `sovTypes`,
  `Unmarshal`, `skipTypes`);
* `x/bank/types/params.go`: the send-enabled parameters of the bank module;
* `x/ibc/02-client/doc.go`: the data model of the ICS 02 light client, together with the
  client manager that the specification describes.

Conventions.  A Go byte slice is a `List UInt8` (a `nil` slice and an empty slice are both
`[]`).  A Go `int`/`uint64` is a natural number; a signed 64-bit value is carried as its
two's-complement bit pattern below `2 ^ 64`, so that "negative" reads "at least `2 ^ 63`".
A Go run-time panic is the error `Err.runtimePanic` of the codec and the error `Panic` of the
bank parameters, where a pointer `*SendEnabled` is an `Option` and `none` is the nil pointer.
-/

namespace Distribution

/-! ## `x/distribution/types/types.pb.go` -/

/-- Outcomes other than a normal return of the generated codec. -/
inductive Err where
  /-- `ErrInvalidLengthTypes`: negative length found during unmarshaling. -/
  | ErrInvalidLengthTypes
  /-- `ErrIntOverflowTypes`: integer overflow. -/
  | ErrIntOverflowTypes
  /-- `ErrUnexpectedEndOfGroupTypes`: unexpected end of group. -/
  | ErrUnexpectedEndOfGroupTypes
  /-- `io.ErrUnexpectedEOF`. -/
  | ErrUnexpectedEOF
  /-- `fmt.Errorf` of a wiretype end group for non-group. -/
  | wiretypeEndGroup
  /-- `fmt.Errorf` of an illegal tag. -/
  | illegalTag
  /-- `fmt.Errorf` of a wrong wireType for a known field. -/
  | wrongWireType
  /-- `fmt.Errorf` of an illegal wireType in `skipTypes`. -/
  | illegalWireType
  /-- A Go run-time panic (index or slice bound out of range). -/
  | runtimePanic
  /-- The loop bound of the embedding was used up (no Go counterpart). -/
  | fuelExhausted
  deriving DecidableEq, Repr

/-- The message `MsgSetWithdrawAddress`: two byte-string fields. -/
structure MsgSetWithdrawAddress where
  DelegatorAddress : List UInt8
  WithdrawAddress : List UInt8
  deriving DecidableEq, Repr

/-- Go `math/bits.Len`, on a value below `2 ^ fuel`: the minimum number of bits needed to
represent `x`, and `0` for `x = 0`. -/
def bitLen : Nat → Nat → Nat
  | 0, _ => 0
  | fuel + 1, x => if x = 0 then 0 else bitLen fuel (x / 2) + 1

/-- Go `math/bits.Len64`. -/
def Len64 (x : Nat) : Nat := bitLen 64 (x % 2 ^ 64)

/-- Source `sovTypes`: `(math_bits.Len64(x|1) + 6) / 7`. -/
def sovTypes (x : Nat) : Nat := (Len64 (x ||| 1) + 6) / 7

/-- Source `(m *MsgSetWithdrawAddress) Size`. -/
def Size (m : MsgSetWithdrawAddress) : Nat :=
  let n := 0
  let l := m.DelegatorAddress.length
  let n := if l > 0 then n + (1 + l + sovTypes l) else n
  let l := m.WithdrawAddress.length
  let n := if l > 0 then n + (1 + l + sovTypes l) else n
  n

/-- The Go assignment `dAtA[i] = b`, which panics when `i` is out of range. -/
def setByte (dAtA : List UInt8) (i : Nat) (b : UInt8) : Except Err (List UInt8) :=
  if i < dAtA.length then .ok (dAtA.set i b) else .error .runtimePanic

/-- The Go statement `copy(dAtA[i:], src)`; slicing panics when `i > len(dAtA)`, and
`copy` moves `min(len(dAtA) - i, len(src))` bytes. -/
def copyAt (dAtA : List UInt8) (i : Nat) (src : List UInt8) : Except Err (List UInt8) :=
  if i ≤ dAtA.length then
    .ok (dAtA.take i ++ src.take (dAtA.length - i) ++ dAtA.drop (i + src.length))
  else .error .runtimePanic

/-- The loop of `encodeVarintTypes`:
`for v >= 1<<7 { dAtA[offset] = uint8(v&0x7f | 0x80); v >>= 7; offset++ }`,
returning the buffer, the final `offset` and the final `v`. -/
def encodeVarintLoop (dAtA : List UInt8) (offset v : Nat) :
    Except Err (List UInt8 × Nat × Nat) :=
  if v ≥ 1 <<< 7 then
    match setByte dAtA offset (UInt8.ofNat (v &&& 0x7f ||| 0x80)) with
    | .error e => .error e
    | .ok d => encodeVarintLoop d (offset + 1) (v >>> 7)
  else .ok (dAtA, offset, v)
termination_by v
decreasing_by
  simp only [Nat.shiftRight_eq_div_pow]
  omega

/-- Source `encodeVarintTypes(dAtA, offset, v)`, with `v : uint64`.  A negative `offset`
after `offset -= sovTypes(v)` makes the first write panic. -/
def encodeVarintTypes (dAtA : List UInt8) (offset v : Nat) : Except Err (List UInt8 × Nat) :=
  if offset < sovTypes v then .error .runtimePanic
  else
    let offset := offset - sovTypes v
    let base := offset
    match encodeVarintLoop dAtA offset v with
    | .error e => .error e
    | .ok (d, offset, v) =>
      match setByte d offset (UInt8.ofNat v) with
      | .error e => .error e
      | .ok d => .ok (d, base)

/-- One `if len(field) > 0 { ... }` block of `MarshalToSizedBuffer`: the field is copied
before index `i`, preceded by its length as a varint and by the tag byte. -/
def marshalField (tag : UInt8) (field : List UInt8) (dAtA : List UInt8) (i : Nat) :
    Except Err (List UInt8 × Nat) :=
  if field.length > 0 then
    if i < field.length then .error .runtimePanic
    else
      let i := i - field.length
      match copyAt dAtA i field with
      | .error e => .error e
      | .ok d =>
        match encodeVarintTypes d i (field.length % 2 ^ 64) with
        | .error e => .error e
        | .ok (d, i) =>
          if i = 0 then .error .runtimePanic
          else
            let i := i - 1
            match setByte d i tag with
            | .error e => .error e
            | .ok d => .ok (d, i)
  else .ok (dAtA, i)

/-- Source `(m *MsgSetWithdrawAddress) MarshalToSizedBuffer`: the buffer after the writes
and the returned count `len(dAtA) - i`. -/
def MarshalToSizedBuffer (m : MsgSetWithdrawAddress) (dAtA : List UInt8) :
    Except Err (List UInt8 × Nat) :=
  let i := dAtA.length
  match marshalField 0x12 m.WithdrawAddress dAtA i with
  | .error e => .error e
  | .ok (d, i) =>
    match marshalField 0xa m.DelegatorAddress d i with
    | .error e => .error e
    | .ok (d, i) => .ok (d, d.length - i)

/-- Source `(m *MsgSetWithdrawAddress) Marshal`. -/
def Marshal (m : MsgSetWithdrawAddress) : Except Err (List UInt8) :=
  let size := Size m
  let dAtA := List.replicate size (0 : UInt8)
  match MarshalToSizedBuffer m (dAtA.take size) with
  | .error e => .error e
  | .ok (d, n) => .ok (d.take n)

/-- The inlined varint-reading loop of `Unmarshal` and `skipTypes`:
`for shift := uint(0); ; shift += 7 { if shift >= 64 { return ErrIntOverflowTypes };
if iNdEx >= l { return io.ErrUnexpectedEOF }; b := dAtA[iNdEx]; iNdEx++;
x |= uint64(b&0x7F) << shift; if b < 0x80 { break } }`.
The first argument counts the iterations still allowed by `shift < 64` (ten at entry);
the result is the 64-bit pattern of `x` and the new `iNdEx`. -/
def decodeVarint (dAtA : List UInt8) : Nat → Nat → Nat → Nat → Except Err (Nat × Nat)
  | 0, _, _, _ => .error .ErrIntOverflowTypes
  | n + 1, iNdEx, shift, x =>
    if shift ≥ 64 then .error .ErrIntOverflowTypes
    else
      match dAtA[iNdEx]? with
      | none => .error .ErrUnexpectedEOF
      | some b =>
        let x := x ||| (((b.toNat &&& 0x7F) <<< shift) % 2 ^ 64)
        if b.toNat < 0x80 then .ok (x, iNdEx + 1)
        else decodeVarint dAtA n (iNdEx + 1) (shift + 7) x

/-- The varint-skipping loop of `skipTypes`, wire type 0:
`for shift := uint(0); ; shift += 7 { if shift >= 64 { ... }; if iNdEx >= l { ... };
iNdEx++; if dAtA[iNdEx-1] < 0x80 { break } }`. -/
def skipVarint (dAtA : List UInt8) : Nat → Nat → Nat → Except Err Nat
  | 0, _, _ => .error .ErrIntOverflowTypes
  | n + 1, iNdEx, shift =>
    if shift ≥ 64 then .error .ErrIntOverflowTypes
    else
      match dAtA[iNdEx]? with
      | none => .error .ErrUnexpectedEOF
      | some b =>
        if b.toNat < 0x80 then .ok (iNdEx + 1)
        else skipVarint dAtA n (iNdEx + 1) (shift + 7)

/-- The loop `for iNdEx < l { ... }` of `skipTypes`, with its locals `iNdEx` and `depth`.
Every iteration reads at least one byte, so `len(dAtA)` iterations are enough. -/
def skipTypesLoop (dAtA : List UInt8) : Nat → Nat → Nat → Except Err Nat
  | 0, iNdEx, _ =>
    if iNdEx < dAtA.length then .error .fuelExhausted else .error .ErrUnexpectedEOF
  | fuel + 1, iNdEx, depth =>
    if iNdEx < dAtA.length then
      match decodeVarint dAtA 10 iNdEx 0 0 with
      | .error e => .error e
      | .ok (wire, iNdEx) =>
        let wireType := wire &&& 0x7
        let next : Except Err (Nat × Nat) :=
          match wireType with
          | 0 =>
            match skipVarint dAtA 10 iNdEx 0 with
            | .error e => .error e
            | .ok iNdEx => .ok (iNdEx, depth)
          | 1 => .ok (iNdEx + 8, depth)
          | 2 =>
            match decodeVarint dAtA 10 iNdEx 0 0 with
            | .error e => .error e
            | .ok (length, iNdEx) =>
              if length ≥ 2 ^ 63 then .error .ErrInvalidLengthTypes
              else .ok (iNdEx + length, depth)
          | 3 => .ok (iNdEx, depth + 1)
          | 4 =>
            if depth = 0 then .error .ErrUnexpectedEndOfGroupTypes
            else .ok (iNdEx, depth - 1)
          | 5 => .ok (iNdEx + 4, depth)
          | _ => .error .illegalWireType
        match next with
        | .error e => .error e
        | .ok (iNdEx, depth) =>
          if iNdEx ≥ 2 ^ 63 then .error .ErrInvalidLengthTypes
          else if depth = 0 then .ok iNdEx
          else skipTypesLoop dAtA fuel iNdEx depth
    else .error .ErrUnexpectedEOF

/-- Source `skipTypes`. -/
def skipTypes (dAtA : List UInt8) : Except Err Nat :=
  skipTypesLoop dAtA dAtA.length 0 0

/-- The body of `case 1:` and `case 2:` of `Unmarshal` after the wire-type test: reads
`byteLen`, checks `byteLen < 0`, `postIndex < 0` and `postIndex > l`, and returns the bytes
`dAtA[iNdEx:postIndex]` with `postIndex`. -/
def readBytesField (dAtA : List UInt8) (iNdEx : Nat) : Except Err (List UInt8 × Nat) :=
  match decodeVarint dAtA 10 iNdEx 0 0 with
  | .error e => .error e
  | .ok (byteLen, iNdEx) =>
    if byteLen ≥ 2 ^ 63 then .error .ErrInvalidLengthTypes
    else
      let postIndex := iNdEx + byteLen
      if postIndex ≥ 2 ^ 63 then .error .ErrInvalidLengthTypes
      else if postIndex > dAtA.length then .error .ErrUnexpectedEOF
      else .ok ((dAtA.drop iNdEx).take (postIndex - iNdEx), postIndex)

/-- The loop `for iNdEx < l { ... }` of `Unmarshal` followed by its final test, as state
passing over the message: the result is the message as the call leaves it and the returned
`error` (`none` for `nil`).  Every iteration advances `iNdEx`. -/
def unmarshalLoop (dAtA : List UInt8) :
    Nat → Nat → MsgSetWithdrawAddress → MsgSetWithdrawAddress × Option Err
  | 0, iNdEx, m =>
    if iNdEx < dAtA.length then (m, some .fuelExhausted)
    else if iNdEx > dAtA.length then (m, some .ErrUnexpectedEOF)
    else (m, none)
  | fuel + 1, iNdEx, m =>
    if iNdEx < dAtA.length then
      let preIndex := iNdEx
      match decodeVarint dAtA 10 iNdEx 0 0 with
      | .error e => (m, some e)
      | .ok (wire, iNdEx) =>
        let fieldNum := (wire >>> 3) % 2 ^ 32
        let wireType := wire &&& 0x7
        if wireType = 4 then (m, some .wiretypeEndGroup)
        else if fieldNum = 0 ∨ fieldNum ≥ 2 ^ 31 then (m, some .illegalTag)
        else if fieldNum = 1 then
          if wireType ≠ 2 then (m, some .wrongWireType)
          else
            match readBytesField dAtA iNdEx with
            | .error e => (m, some e)
            | .ok (bs, postIndex) =>
              unmarshalLoop dAtA fuel postIndex { m with DelegatorAddress := bs }
        else if fieldNum = 2 then
          if wireType ≠ 2 then (m, some .wrongWireType)
          else
            match readBytesField dAtA iNdEx with
            | .error e => (m, some e)
            | .ok (bs, postIndex) =>
              unmarshalLoop dAtA fuel postIndex { m with WithdrawAddress := bs }
        else
          let iNdEx := preIndex
          match skipTypes (dAtA.drop iNdEx) with
          | .error e => (m, some e)
          | .ok skippy =>
            if iNdEx + skippy ≥ 2 ^ 63 then (m, some .ErrInvalidLengthTypes)
            else if iNdEx + skippy > dAtA.length then (m, some .ErrUnexpectedEOF)
            else unmarshalLoop dAtA fuel (iNdEx + skippy) m
    else if iNdEx > dAtA.length then (m, some .ErrUnexpectedEOF)
    else (m, none)

/-- Source `(m *MsgSetWithdrawAddress) Unmarshal(dAtA)`: the receiver after the call and
the returned error. -/
def Unmarshal (dAtA : List UInt8) (m : MsgSetWithdrawAddress) :
    MsgSetWithdrawAddress × Option Err :=
  unmarshalLoop dAtA dAtA.length 0 m

/-- The base-128 little-endian encoding with continuation bits: seven bits per byte, least
significant group first, the high bit set on every byte but the last. -/
def varint (v : Nat) : List UInt8 :=
  if v < 128 then [UInt8.ofNat v] else UInt8.ofNat (v % 128 + 128) :: varint (v / 128)
termination_by v
decreasing_by omega

/-- The wire form of one length-delimited field: nothing for an empty value, otherwise the
tag byte, the length as a varint, and the value. -/
def fieldBytes (tag : UInt8) (field : List UInt8) : List UInt8 :=
  if field = [] then [] else tag :: (varint field.length ++ field)

end Distribution

namespace Bank

/-! ## `x/bank/types/params.go` -/

/-- A Go run-time panic of the functions of `params.go`. -/
inductive Panic where
  /-- The dereference of a nil `*SendEnabled` (invalid memory address or nil pointer
  dereference). -/
  | nilPointerDereference
  deriving DecidableEq, Repr

/-- The message `SendEnabled` of the bank module (declared in the generated `bank.pb.go`):
a coin denom and its send-enabled flag. -/
structure SendEnabled where
  Denom : String
  Enabled : Bool
  deriving DecidableEq, Repr

/-- Source `type SendEnabledParams []*SendEnabled`: a pointer `*SendEnabled` is `none` when
nil and `some` of the value it points to otherwise. -/
abbrev SendEnabledParams := List (Option SendEnabled)

/-- The message `Params` of the bank module (declared in the generated `bank.pb.go`), with
the three fields that `NewParams` fills. -/
structure Params where
  SendEnabled : SendEnabledParams
  DefaultSendEnabled : Bool
  UnrestrictedTokenTransfer : Bool
  deriving DecidableEq, Repr

/-- Source constant `DefaultSendEnabled = true`. -/
def DefaultSendEnabled : Bool := true

/-- Source constant `DefaultUnrestrictedTokenTransfer = false`. -/
def DefaultUnrestrictedTokenTransfer : Bool := false

/-- Source `NewParams`. -/
def NewParams (defaultSendEnabled : Bool) (sendEnabledParams : SendEnabledParams)
    (unrestrictedTokenTransfer : Bool) : Params :=
  { SendEnabled := sendEnabledParams
    DefaultSendEnabled := defaultSendEnabled
    UnrestrictedTokenTransfer := unrestrictedTokenTransfer }

/-- Source `DefaultParams`. -/
def DefaultParams : Params :=
  { SendEnabled := []
    DefaultSendEnabled := true
    UnrestrictedTokenTransfer := DefaultUnrestrictedTokenTransfer }

/-- Source `NewSendEnabled`: a pointer to a fresh `SendEnabled`. -/
def NewSendEnabled (denom : String) (sendEnabled : Bool) : Option SendEnabled :=
  some { Denom := denom, Enabled := sendEnabled }

/-- The loop `for _, pse := range p.SendEnabled { if pse.Denom == denom { return pse.Enabled } }`
of `SendEnabledDenom`, followed by `return p.DefaultSendEnabled`.  Reading `pse.Denom` of a
nil entry panics. -/
def sendEnabledDenomLoop (denom : String) (defaultSendEnabled : Bool) :
    List (Option SendEnabled) → Except Panic Bool
  | [] => .ok defaultSendEnabled
  | none :: _ => .error .nilPointerDereference
  | some pse :: rest =>
    if pse.Denom = denom then .ok pse.Enabled
    else sendEnabledDenomLoop denom defaultSendEnabled rest

/-- Source `(p Params) SendEnabledDenom(denom)`. -/
def Params.SendEnabledDenom (p : Params) (denom : String) : Except Panic Bool :=
  sendEnabledDenomLoop denom p.DefaultSendEnabled p.SendEnabled

/-- The loop of `SetSendEnabledParam` over `p.SendEnabled`, with the accumulator `sendParams`:
`if p.Denom != denom { sendParams = append(sendParams, NewSendEnabled(p.Denom, p.Enabled)) }`.
Reading `p.Denom` of a nil entry panics. -/
def setSendEnabledLoop (denom : String) :
    List (Option SendEnabled) → SendEnabledParams → Except Panic SendEnabledParams
  | [], sendParams => .ok sendParams
  | none :: _, _ => .error .nilPointerDereference
  | some p :: rest, sendParams =>
    if p.Denom ≠ denom then
      setSendEnabledLoop denom rest (sendParams ++ [NewSendEnabled p.Denom p.Enabled])
    else setSendEnabledLoop denom rest sendParams

/-- Source `(p Params) SetSendEnabledParam(denom, sendEnabled)`. -/
def Params.SetSendEnabledParam (p : Params) (denom : String) (sendEnabled : Bool) :
    Except Panic Params :=
  match setSendEnabledLoop denom p.SendEnabled [] with
  | .error e => .error e
  | .ok sendParams =>
    let sendParams := sendParams ++ [NewSendEnabled denom sendEnabled]
    .ok (NewParams p.DefaultSendEnabled sendParams p.UnrestrictedTokenTransfer)

/-- The errors returned by the validation functions of `params.go`. -/
inductive Error where
  /-- `fmt.Errorf("invalid parameter type: %T", i)`. -/
  | invalidParameterType
  /-- `fmt.Errorf("duplicate send enabled parameter found: '%s'", p.Denom)`. -/
  | duplicateSendEnabled (denom : String)
  /-- An error returned by `sdk.ValidateDenom`. -/
  | invalidDenom (denom : String)
  deriving DecidableEq, Repr

end Bank

namespace IBC

/-! ## `x/ibc/02-client/doc.go` and the client manager of the specification

The file `doc.go` declares the data model (`ConsensusState`, `ClientState`, `Header`, the two
predicate types).  The predicates of the client kinds and the manager that stores and updates
clients are not among these files; they are modelled from the specification (§3–§7). -/

/-- Source `CommitmentRoot`: an opaque commitment root. -/
abbrev CommitmentRoot := List UInt8

/-- Source `HeaderProof`: an opaque proof blob. -/
abbrev HeaderProof := List UInt8

/-- The enumeration `Kind` of consensus algorithms, as its tag. -/
abbrev Kind := Nat

/-- The identifier of a tracked client. -/
abbrev ClientId := String

/-- Source `interface ConsensusState`: `height: uint64`, `root: CommitmentRoot`; the two
predicate members are selected by `kind` (`ConsensusState.Kind()`), see `Registry`. -/
structure ConsensusState where
  height : Nat
  root : CommitmentRoot
  kind : Kind
  deriving DecidableEq, Repr

/-- Source `interface Header`: `height`, `proof`, `state: Maybe[ConsensusState]` (the
`newState` of the specification) and `root`. -/
structure Header where
  height : Nat
  proof : HeaderProof
  state : Option ConsensusState
  root : CommitmentRoot
  deriving DecidableEq, Repr

/-- A finite map as an association list with at most one entry per key in use. -/
abbrev Map (κ ν : Type) := List (κ × ν)

/-- The entry of a map at a key. -/
def Map.get {κ ν : Type} [DecidableEq κ] : Map κ ν → κ → Option ν
  | [], _ => none
  | (k, v) :: rest, key => if k = key then some v else Map.get rest key

/-- Insertion of an entry: the value at an existing key is replaced, a new key is added. -/
def Map.put {κ ν : Type} [DecidableEq κ] : Map κ ν → κ → ν → Map κ ν
  | [], key, val => [(key, val)]
  | (k, v) :: rest, key, val =>
    if k = key then (key, val) :: rest else (k, v) :: Map.put rest key val

/-- Source `interface ClientState`: `consensusState` (the `latestConsensusState` of the
specification), `verifiedRoots: Map<uint64, CommitmentRoot>` and `frozen`, with the
`clientId` that §3 of the specification adds. -/
structure ClientState where
  clientId : ClientId
  consensusState : ConsensusState
  verifiedRoots : Map Nat CommitmentRoot
  frozen : Bool
  deriving DecidableEq, Repr

/-- Modelled from the spec: the error taxonomy of §7, which the files do not declare. -/
inductive Error where
  | DuplicateClientError
  | UnsupportedKindError
  | InvalidProofError
  | StaleHeaderError
  | RootMismatchError
  | RootNotFoundError
  | ClientFrozenError
  | ClientNotFoundError
  | NoMisbehaviourError
  deriving DecidableEq, Repr

/-- Modelled from the spec: the implementation of one client kind (§4.3, §4.4, §9), which no
file of the repository snapshot contains.  `proofValid` is the kind-specific
proof-authenticity check of a header against a consensus state, `strictlyIncreasing` says
whether the kind requires strictly increasing heights, and `violatesSafety` is the
kind-specific safety violation of two headers other than different roots at one height. -/
structure KindPredicates where
  proofValid : ConsensusState → Header → Bool
  strictlyIncreasing : Bool
  violatesSafety : ConsensusState → Header → Header → Bool

/-- Modelled from the spec: the process-wide table from kind tag to predicate implementation
(§9), absent from the files; `none` means that no predicate is registered for the kind. -/
abbrev Registry := Kind → Option KindPredicates

/-- Modelled from the spec: the validity predicate `validate(consensusState, header)` of
§4.3, whose implementation is absent from the files.  It fails with `UnsupportedKindError`
if no predicate is registered for the kind, with `StaleHeaderError` if the kind requires
strictly increasing heights and `header.height <= consensusState.height`, and with
`InvalidProofError` if the proof does not validate.  On success it returns `header.newState`
if present and internally consistent (height matches, root matches `header.root`), or the
state derived from `header.height`, `header.root` and the prior kind. -/
def validate (reg : Registry) (consensusState : ConsensusState) (header : Header) :
    Except Error ConsensusState :=
  match reg consensusState.kind with
  | none => .error .UnsupportedKindError
  | some k =>
    if k.strictlyIncreasing ∧ header.height ≤ consensusState.height then
      .error .StaleHeaderError
    else if k.proofValid consensusState header = false then .error .InvalidProofError
    else
      match header.state with
      | some newState =>
        if newState.height = header.height ∧ newState.root = header.root then .ok newState
        else .ok ⟨header.height, header.root, consensusState.kind⟩
      | none => .ok ⟨header.height, header.root, consensusState.kind⟩

/-- Modelled from the spec: the equivocation predicate `isEquivocation(cs, headerA, headerB)`
of §4.4, whose implementation is absent from the files: true only if both headers pass the
proof-authenticity check and they assert different roots for the same height or otherwise
violate the safety property of the kind.  The kind-specific check `violatesSafety` is asked
about the two headers in both orders, so that either submission order yields the same verdict,
as the design rationale of §4.4 requires of equivocation detection. -/
def isEquivocation (reg : Registry) (consensusState : ConsensusState)
    (headerA headerB : Header) : Bool :=
  match reg consensusState.kind with
  | none => false
  | some k =>
    k.proofValid consensusState headerA && k.proofValid consensusState headerB &&
      ((decide (headerA.height = headerB.height) && decide (headerA.root ≠ headerB.root)) ||
        (k.violatesSafety consensusState headerA headerB ||
          k.violatesSafety consensusState headerB headerA))

/-- Modelled from the spec: the persisted state of the client manager, the `ClientState`
records keyed by `clientId` (§6); the manager is absent from the files. -/
abbrev Store := Map ClientId ClientState

/-- Modelled from the spec: the transition `CreateClient(clientId, initialConsensusState)` of
§4.5 (the manager is absent from the files).  It fails with `DuplicateClientError` if
`clientId` exists; the new client is `Active` and `verifiedRoots` holds the entry of the
initial height (§3). -/
def CreateClient (store : Store) (clientId : ClientId)
    (initialConsensusState : ConsensusState) : Except Error Unit × Store :=
  match store.get clientId with
  | some _ => (.error .DuplicateClientError, store)
  | none =>
    (.ok (), store.put clientId
      { clientId := clientId
        consensusState := initialConsensusState
        verifiedRoots := [(initialConsensusState.height, initialConsensusState.root)]
        frozen := false })

/-- Modelled from the spec: the test that `verifiedRoots` already holds, at `height`, a root
different from `root` (§3: an existing entry must never be overwritten with a different
root). -/
def recordsOtherRoot (verifiedRoots : Map Nat CommitmentRoot) (height : Nat)
    (root : CommitmentRoot) : Bool :=
  match verifiedRoots.get height with
  | some recorded => decide (recorded ≠ root)
  | none => false

/-- Modelled from the spec: the transition `UpdateClient(clientId, header)` of §4.5 (the
manager is absent from the files).  A missing client gives `ClientNotFoundError`, a frozen one
`ClientFrozenError`; otherwise the validity predicate runs on `latestConsensusState`: on
success the new consensus state is installed and `(header.height, resultingRoot)` is inserted
into `verifiedRoots`, the result being the new height; on failure the state is unchanged and
the error is surfaced.  `verifiedRoots` is append-only (§3): a header that validates but whose
height already has a different recorded root is not accepted, since accepting it would
overwrite that entry; the specification names no error for this case, and the model surfaces
`RootMismatchError` (the recorded root differs), leaving the state unchanged. -/
def UpdateClient (reg : Registry) (store : Store) (clientId : ClientId) (header : Header) :
    Except Error Nat × Store :=
  match store.get clientId with
  | none => (.error .ClientNotFoundError, store)
  | some c =>
    if c.frozen then (.error .ClientFrozenError, store)
    else
      match validate reg c.consensusState header with
      | .error e => (.error e, store)
      | .ok newState =>
        if recordsOtherRoot c.verifiedRoots header.height newState.root then
          (.error .RootMismatchError, store)
        else
          (.ok newState.height, store.put clientId
            { c with
              consensusState := newState
              verifiedRoots := c.verifiedRoots.put header.height newState.root })

/-- Modelled from the spec: the transition `SubmitMisbehaviour(clientId, headerA, headerB)` of
§4.5 (the manager is absent from the files).  An `Active` client is frozen if
`isEquivocation` holds and is left as it is with `NoMisbehaviourError` otherwise; a `Frozen`
client is never changed: valid evidence returns success without re-freezing, any other
submission is rejected with `ClientFrozenError`. -/
def SubmitMisbehaviour (reg : Registry) (store : Store) (clientId : ClientId)
    (headerA headerB : Header) : Except Error Unit × Store :=
  match store.get clientId with
  | none => (.error .ClientNotFoundError, store)
  | some c =>
    if c.frozen then
      if isEquivocation reg c.consensusState headerA headerB then (.ok (), store)
      else (.error .ClientFrozenError, store)
    else if isEquivocation reg c.consensusState headerA headerB then
      (.ok (), store.put clientId { c with frozen := true })
    else (.error .NoMisbehaviourError, store)

/-- Modelled from the spec: the query `VerifyRoot(clientId, height, expectedRoot)` of §4.5
(the manager is absent from the files), for `Active` and `Frozen` clients alike. -/
def VerifyRoot (store : Store) (clientId : ClientId) (height : Nat)
    (expectedRoot : CommitmentRoot) : Except Error Unit × Store :=
  match store.get clientId with
  | none => (.error .ClientNotFoundError, store)
  | some c =>
    match c.verifiedRoots.get height with
    | none => (.error .RootNotFoundError, store)
    | some root =>
      if root = expectedRoot then (.ok (), store) else (.error .RootMismatchError, store)

/-- Modelled from the spec: the message surface of the manager (§6), absent from the files. -/
inductive Op where
  | createClient (clientId : ClientId) (initialConsensusState : ConsensusState)
  | updateClient (clientId : ClientId) (header : Header)
  | submitMisbehaviour (clientId : ClientId) (headerA headerB : Header)
  | verifyRoot (clientId : ClientId) (height : Nat) (expectedRoot : CommitmentRoot)
  deriving DecidableEq, Repr

/-- Modelled from the spec: the step of the manager (absent from the files), the store after
one operation, whatever its result.  The optional, policy-driven pruning of §4.5 is not an
operation of the message surface and is not a step. -/
def step (reg : Registry) (store : Store) : Op → Store
  | .createClient clientId cs => (CreateClient store clientId cs).2
  | .updateClient clientId header => (UpdateClient reg store clientId header).2
  | .submitMisbehaviour clientId a b => (SubmitMisbehaviour reg store clientId a b).2
  | .verifyRoot clientId height root => (VerifyRoot store clientId height root).2

/-- Modelled from the spec: the store after a sequence of operations, applied in order (§5:
one operation completes before the next begins). -/
def run (reg : Registry) (store : Store) (ops : List Op) : Store :=
  ops.foldl (step reg) store

/-- The invariant of §3: `verifiedRoots` holds the root of the latest consensus state at its
height, for every tracked client. -/
def latestRecorded (store : Store) : Prop :=
  ∀ (clientId : ClientId) (c : ClientState), store.get clientId = some c →
    c.verifiedRoots.get c.consensusState.height = some c.consensusState.root

/-- A client kind for the scenarios of §8: a proof is authentic when it is the byte `1`,
heights must strictly increase, and there is no further safety violation. -/
def sampleKind : KindPredicates :=
  { proofValid := fun _ h => decide (h.proof = [1])
    strictlyIncreasing := true
    violatesSafety := fun _ _ _ => false }

/-- A registry with one kind, tag `0`: a proof is authentic when it is the byte `1`, heights
must strictly increase, and there is no further safety violation. -/
def sampleRegistry : Registry := fun kind =>
  if kind = 0 then
    some { proofValid := fun _ h => decide (h.proof = [1])
           strictlyIncreasing := true
           violatesSafety := fun _ _ _ => false }
  else none

/-- A client kind that accepts heights in any order (§9, open question) and whose
kind-specific safety check is written for one order of the two headers only: a proof is
authentic when it is the byte `1`. -/
def looseKind : KindPredicates :=
  { proofValid := fun _ h => decide (h.proof = [1])
    strictlyIncreasing := false
    violatesSafety := fun _ a b => decide (a.height < b.height) }

/-- A registry with the kinds `sampleKind` (tag `0`) and `looseKind` (tag `1`). -/
def looseRegistry : Registry := fun kind =>
  if kind = 0 then some sampleKind else if kind = 1 then some looseKind else none

/-- A store with the client `chain-L` of the kind `looseKind`, created at height 1. -/
def looseStore : Store := (CreateClient [] "chain-L" ⟨1, [0xAA], 1⟩).2

/-- The store of Scenario 1 of §8: the client `chain-A` created at height 1 with root `0xAA`. -/
def scenarioStore : Store := (CreateClient [] "chain-A" ⟨1, [0xAA], 0⟩).2

/-- The store of Scenario 3 of §8 after the freeze: the client `chain-A` at height 5, frozen. -/
def frozenStore : Store :=
  [("chain-A", ⟨"chain-A", ⟨5, [0xAA], 0⟩, [(1, [0xA1]), (5, [0xAA])], true⟩)]

end IBC
namespace Distribution

theorem and_0x7f (v : Nat) : v &&& 0x7f = v % 128 :=
  Nat.and_pow_two_sub_one_eq_mod v 7

theorem or_0x80 (x : Nat) (h : x < 128) : x ||| 0x80 = x + 128 := by
  have h1 := Nat.mul_add_lt_is_or (i := 7) (b := x) (by simpa using h) 1
  rw [Nat.or_comm]
  simp only [Nat.reducePow, Nat.mul_one] at h1
  omega

theorem or_one_div_two (x : Nat) : (x ||| 1) / 2 = x / 2 := by
  rw [Nat.or_div_two]; simp

theorem or_one_pos (x : Nat) : 0 < x ||| 1 := by
  rcases Nat.eq_zero_or_pos (x ||| 1) with h | h
  · have h2 := Nat.testBit_or x 1 0
    rw [h] at h2
    simp at h2
  · exact h

theorem bitLen_or_one (f x : Nat) (h : 0 < x) : bitLen f (x ||| 1) = bitLen f x := by
  cases f with
  | zero => rfl
  | succ f =>
    have h1 := or_one_pos x
    simp only [bitLen, or_one_div_two]
    rw [if_neg (by omega), if_neg (by omega)]

theorem bitLen_le (f : Nat) : ∀ k x : Nat, x < 2 ^ k → bitLen f x ≤ k := by
  induction f with
  | zero => intro k x _; simp [bitLen]
  | succ f ih =>
    intro k x hx
    simp only [bitLen]
    split
    · omega
    · cases k with
      | zero => simp at hx; omega
      | succ k =>
        have := ih k (x / 2) (by rw [Nat.pow_succ] at hx; omega)
        omega

theorem bitLen_fuel (k : Nat) : ∀ f x : Nat, x < 2 ^ f → bitLen (f + k) x = bitLen f x := by
  intro f
  induction f with
  | zero =>
    intro x hx
    have : x = 0 := by simpa using hx
    subst this
    cases k <;> simp [bitLen]
  | succ f ih =>
    intro x hx
    have e : f + 1 + k = (f + k) + 1 := by omega
    rw [e]
    simp only [bitLen]
    split
    · rfl
    · rw [ih (x / 2) (by rw [Nat.pow_succ] at hx; omega)]

theorem bitLen_step (f x : Nat) (h : 0 < x) : bitLen (f + 1) x = bitLen f (x / 2) + 1 := by
  simp only [bitLen]; rw [if_neg (by omega)]

theorem bitLen_ge128 (f x : Nat) (h : 128 ≤ x) : bitLen (f + 7) x = bitLen f (x / 128) + 7 := by
  rw [bitLen_step _ _ (by omega), bitLen_step _ _ (by omega), bitLen_step _ _ (by omega),
    bitLen_step _ _ (by omega), bitLen_step _ _ (by omega), bitLen_step _ _ (by omega),
    bitLen_step _ _ (by omega)]
  simp only [Nat.div_div_eq_div_mul]

theorem sovTypes_lt128 (v : Nat) (h : v < 128) : sovTypes v = 1 := by
  have h1 : v ||| 1 < 2 ^ 7 := Nat.or_lt_two_pow (by simpa using h) (by decide)
  have h2 := or_one_pos v
  have h3 : (v ||| 1) % 2 ^ 64 = v ||| 1 := Nat.mod_eq_of_lt (by omega)
  have h4 := bitLen_le 64 7 (v ||| 1) h1
  have h5 : bitLen 64 (v ||| 1) = bitLen 63 ((v ||| 1) / 2) + 1 := bitLen_step 63 (v ||| 1) h2
  simp only [sovTypes, Len64, h3]
  omega

theorem sovTypes_ge128 (v : Nat) (h : 128 ≤ v) (hv : v < 2 ^ 64) :
    sovTypes v = sovTypes (v / 128) + 1 := by
  have h1 : v ||| 1 < 2 ^ 64 := Nat.or_lt_two_pow hv (by decide)
  have h3 : (v ||| 1) % 2 ^ 64 = v ||| 1 := Nat.mod_eq_of_lt h1
  have hq : v / 128 < 2 ^ 57 := by omega
  have h1' : v / 128 ||| 1 < 2 ^ 57 := Nat.or_lt_two_pow hq (by decide)
  have h3' : (v / 128 ||| 1) % 2 ^ 64 = v / 128 ||| 1 := Nat.mod_eq_of_lt (by omega)
  simp only [sovTypes, Len64, h3, h3']
  rw [bitLen_or_one _ _ (by omega), bitLen_or_one _ _ (by omega),
    bitLen_ge128 57 v h, bitLen_fuel 7 57 (v / 128) hq]
  omega

theorem varint_lt128 (v : Nat) (h : v < 128) : varint v = [UInt8.ofNat v] := by
  rw [varint]; simp [h]

theorem varint_ge128 (v : Nat) (h : 128 ≤ v) :
    varint v = UInt8.ofNat (v % 128 + 128) :: varint (v / 128) := by
  rw [varint]; rw [if_neg (by omega)]

theorem sovTypes_eq_length (v : Nat) : v < 2 ^ 64 → sovTypes v = (varint v).length := by
  induction v using Nat.strong_induction_on with
  | _ v ih =>
    intro hv
    by_cases h : v < 128
    · rw [sovTypes_lt128 v h, varint_lt128 v h]; rfl
    · have h' : 128 ≤ v := by omega
      rw [sovTypes_ge128 v h' hv, varint_ge128 v h', ih (v / 128) (by omega) (by omega)]
      rfl


theorem setByte_mid (pre post : List UInt8) (x b : UInt8) :
    setByte (pre ++ x :: post) pre.length b = .ok (pre ++ b :: post) := by
  simp [setByte]

theorem copyAt_mid (pre mid post src : List UInt8) (h : mid.length = src.length) :
    copyAt (pre ++ mid ++ post) pre.length src = .ok (pre ++ src ++ post) := by
  have e : pre.length + src.length = (pre ++ mid).length := by simp [h]
  have e2 : (pre ++ mid ++ post).length - pre.length = src.length + post.length := by
    simp [h]
  simp only [copyAt]
  rw [if_pos (by simp), e, e2, List.drop_left, List.append_assoc pre mid post, List.take_left,
    List.take_of_length_le (by omega)]

theorem encodeVarintLoop_spec (v : Nat) : ∀ pre mid post : List UInt8,
    mid.length = (varint v).length →
    ∃ d off w, encodeVarintLoop (pre ++ mid ++ post) pre.length v = .ok (d, off, w) ∧
      setByte d off (UInt8.ofNat w) = .ok (pre ++ varint v ++ post) := by
  induction v using Nat.strong_induction_on with
  | _ v ih =>
    intro pre mid post hlen
    by_cases h : v < 128
    · rw [varint_lt128 v h] at hlen ⊢
      refine ⟨pre ++ mid ++ post, pre.length, v, ?_, ?_⟩
      · rw [encodeVarintLoop]; rw [if_neg (by simp; omega)]
      · match mid, hlen with
        | [x], _ => simp [setByte]
    · have h' : 128 ≤ v := by omega
      rw [varint_ge128 v h'] at hlen ⊢
      match mid, hlen with
      | x :: mid', hlen' =>
        have hl : mid'.length = (varint (v / 128)).length := by simpa using hlen'
        obtain ⟨d, off, w, h1, h2⟩ :=
          ih (v / 128) (by omega) (pre ++ [UInt8.ofNat (v % 128 + 128)]) mid' post hl
        refine ⟨d, off, w, ?_, ?_⟩
        · rw [encodeVarintLoop]
          rw [if_pos (by simp; omega)]
          have hs : setByte (pre ++ x :: mid' ++ post) pre.length
              (UInt8.ofNat (v &&& 0x7f ||| 0x80)) =
              .ok (pre ++ [UInt8.ofNat (v % 128 + 128)] ++ mid' ++ post) := by
            rw [and_0x7f, or_0x80 _ (Nat.mod_lt _ (by decide))]
            have := setByte_mid pre (mid' ++ post) x (UInt8.ofNat (v % 128 + 128))
            simpa using this
          rw [hs]
          simp only [Nat.shiftRight_eq_div_pow]
          have hl2 : (pre ++ [UInt8.ofNat (v % 128 + 128)]).length = pre.length + 1 := by simp
          rw [hl2] at h1
          exact h1
        · rw [h2]; simp

theorem encodeVarintTypes_spec (v : Nat) (hv : v < 2 ^ 64) (pre mid post : List UInt8)
    (hlen : mid.length = (varint v).length) :
    encodeVarintTypes (pre ++ mid ++ post) (pre.length + mid.length) v =
      .ok (pre ++ varint v ++ post, pre.length) := by
  obtain ⟨d, off, w, h1, h2⟩ := encodeVarintLoop_spec v pre mid post hlen
  have hs : sovTypes v = mid.length := by rw [sovTypes_eq_length v hv, hlen]
  simp only [encodeVarintTypes, hs]
  rw [if_neg (by omega)]
  have e : pre.length + mid.length - mid.length = pre.length := by omega
  rw [e, h1]
  simp only [h2]

theorem fieldBytes_length (tag : UInt8) (field : List UInt8) :
    (fieldBytes tag field).length =
      if field.length > 0 then 1 + field.length + (varint field.length).length else 0 := by
  cases field with
  | nil => simp [fieldBytes]
  | cons a t => simp [fieldBytes]; omega

theorem marshalField_spec (tag : UInt8) (field : List UInt8) (hf : field.length < 2 ^ 64)
    (pre mid post : List UInt8) (hlen : mid.length = (fieldBytes tag field).length) :
    marshalField tag field (pre ++ mid ++ post) (pre.length + mid.length) =
      .ok (pre ++ fieldBytes tag field ++ post, pre.length) := by
  by_cases hnil : field = []
  · subst hnil
    have hm : mid = [] := by simpa [fieldBytes] using hlen
    subst hm
    simp [marshalField, fieldBytes]
  · have hpos : field.length > 0 := List.length_pos.mpr hnil
    rw [fieldBytes_length, if_pos hpos] at hlen
    match mid, hlen with
    | [], hlen' => simp at hlen'; omega
    | t :: rest, hlen' =>
      have hrest : rest.length = (varint field.length).length + field.length := by
        simp at hlen'; omega
      have hsplit : rest = rest.take (varint field.length).length ++
          rest.drop (varint field.length).length := (List.take_append_drop _ _).symm
      generalize hm1 : rest.take (varint field.length).length = m1 at hsplit
      generalize hm2 : rest.drop (varint field.length).length = m2 at hsplit
      have hl1 : m1.length = (varint field.length).length := by
        rw [← hm1, List.length_take]; omega
      have hl2 : m2.length = field.length := by
        rw [← hm2, List.length_drop]; omega
      subst hsplit
      have hmod : field.length % 2 ^ 64 = field.length := Nat.mod_eq_of_lt hf
      have hbuf : pre ++ t :: (m1 ++ m2) ++ post = (pre ++ [t] ++ m1) ++ m2 ++ post := by simp
      have hidx : pre.length + (t :: (m1 ++ m2)).length - field.length =
          (pre ++ [t] ++ m1).length := by simp; omega
      simp only [marshalField, hmod]
      rw [if_pos hpos, if_neg (by simp; omega), hidx, hbuf, copyAt_mid _ _ _ _ hl2]
      have hidx2 : (pre ++ [t] ++ m1).length = (pre ++ [t]).length + m1.length := by simp; omega
      have hbuf2 : pre ++ [t] ++ m1 ++ field ++ post = (pre ++ [t]) ++ m1 ++ (field ++ post) := by
        simp
      simp only []
      rw [hidx2, hbuf2, encodeVarintTypes_spec _ hf _ _ _ hl1]
      simp only []
      rw [if_neg (by simp)]
      have hidx3 : (pre ++ [t]).length - 1 = pre.length := by simp
      have hbuf3 : pre ++ [t] ++ varint field.length ++ (field ++ post) =
          pre ++ t :: (varint field.length ++ field ++ post) := by simp
      rw [hidx3, hbuf3, setByte_mid]
      simp [fieldBytes, hnil]


theorem Size_eq (m : MsgSetWithdrawAddress) (hD : m.DelegatorAddress.length < 2 ^ 64)
    (hW : m.WithdrawAddress.length < 2 ^ 64) :
    Size m = (fieldBytes 0xa m.DelegatorAddress).length +
      (fieldBytes 0x12 m.WithdrawAddress).length := by
  simp only [Size, fieldBytes_length, sovTypes_eq_length _ hD, sovTypes_eq_length _ hW]
  split <;> split <;> omega

theorem le_Size (m : MsgSetWithdrawAddress) :
    m.DelegatorAddress.length ≤ Size m ∧ m.WithdrawAddress.length ≤ Size m := by
  simp only [Size]
  split <;> split <;> omega

theorem Marshal_eq (m : MsgSetWithdrawAddress) (h : Size m < 2 ^ 63) :
    Marshal m = .ok (fieldBytes 0xa m.DelegatorAddress ++ fieldBytes 0x12 m.WithdrawAddress) := by
  have hD : m.DelegatorAddress.length < 2 ^ 64 := by have := (le_Size m).1; omega
  have hW : m.WithdrawAddress.length < 2 ^ 64 := by have := (le_Size m).2; omega
  have hsz := Size_eq m hD hW
  generalize hF1 : fieldBytes 0xa m.DelegatorAddress = F1 at hsz
  generalize hF2 : fieldBytes 0x12 m.WithdrawAddress = F2 at hsz
  have hbuf : (List.replicate (Size m) (0 : UInt8)).take (Size m) =
      List.replicate F1.length 0 ++ List.replicate F2.length 0 := by
    rw [hsz, ← List.replicate_add]
    exact List.take_of_length_le (by simp)
  have h1 := marshalField_spec 0x12 m.WithdrawAddress hW (List.replicate F1.length 0)
    (List.replicate F2.length 0) [] (by rw [hF2]; simp)
  have h2 := marshalField_spec 0xa m.DelegatorAddress hD [] (List.replicate F1.length 0)
    F2 (by rw [hF1]; simp)
  rw [hF2] at h1
  rw [hF1] at h2
  simp only [List.length_replicate, List.append_nil, List.nil_append, List.length_nil,
    Nat.zero_add] at h1 h2
  simp only [Marshal, MarshalToSizedBuffer]
  rw [hbuf]
  simp only [List.length_append, List.length_replicate]
  rw [h1]
  simp only []
  rw [h2]
  simp


theorem getElem?_mid (pre post : List UInt8) (b : UInt8) :
    (pre ++ b :: post)[pre.length]? = some b := by
  rw [List.getElem?_append_right (Nat.le_refl _)]
  simp

theorem toNat_ofNat_lt (n : Nat) (h : n < 256) : (UInt8.ofNat n).toNat = n := by
  have : (UInt8.ofNat n).toNat = n % 256 := by simp [UInt8.toNat, UInt8.ofNat, Fin.ofNat]
  rw [this]; exact Nat.mod_eq_of_lt h

theorem or_shift_eq_add (x g shift : Nat) (hx : x < 2 ^ shift) (hg : g * 2 ^ shift < 2 ^ 64) :
    x ||| ((g <<< shift) % 2 ^ 64) = x + g * 2 ^ shift := by
  rw [Nat.shiftLeft_eq, Nat.mod_eq_of_lt hg, Nat.or_comm, Nat.mul_comm g,
    ← Nat.mul_add_lt_is_or hx g]
  omega

theorem decodeVarint_varint (v : Nat) : ∀ (n shift x : Nat) (pre post : List UInt8),
    shift + 7 * n = 70 → shift < 64 → v * 2 ^ shift < 2 ^ 63 → x < 2 ^ shift →
    decodeVarint (pre ++ varint v ++ post) n pre.length shift x =
      .ok (x + v * 2 ^ shift, pre.length + (varint v).length) := by
  induction v using Nat.strong_induction_on with
  | _ v ih =>
    intro n shift x pre post hn hs hv hx
    obtain ⟨n, rfl⟩ : ∃ k, n = k + 1 := ⟨n - 1, by omega⟩
    have hP : 0 < 2 ^ shift := by positivity
    by_cases h : v < 128
    · rw [varint_lt128 v h]
      have hb : (pre ++ [UInt8.ofNat v] ++ post)[pre.length]? = some (UInt8.ofNat v) := by
        simpa using getElem?_mid pre post (UInt8.ofNat v)
      have ht : (UInt8.ofNat v).toNat = v := toNat_ofNat_lt v (by omega)
      simp only [decodeVarint]
      rw [if_neg (by omega), hb]
      simp only [ht, and_0x7f, Nat.mod_eq_of_lt h]
      rw [if_pos (by omega), or_shift_eq_add x v shift hx (by omega)]
      rfl
    · have h' : 128 ≤ v := by omega
      rw [varint_ge128 v h']
      have hb : (pre ++ UInt8.ofNat (v % 128 + 128) :: varint (v / 128) ++ post)[pre.length]? =
          some (UInt8.ofNat (v % 128 + 128)) := by
        simpa using getElem?_mid pre (varint (v / 128) ++ post) (UInt8.ofNat (v % 128 + 128))
      have ht : (UInt8.ofNat (v % 128 + 128)).toNat = v % 128 + 128 :=
        toNat_ofNat_lt _ (by omega)
      have hg : (v % 128 + 128) % 128 = v % 128 := by omega
      have hmul : v % 128 * 2 ^ shift + v / 128 * (2 ^ shift * 128) = v * 2 ^ shift := by
        conv_rhs => rw [← Nat.div_add_mod v 128]
        ring
      have hle1 : v % 128 * 2 ^ shift ≤ v * 2 ^ shift := by
        have := Nat.zero_le (v / 128 * (2 ^ shift * 128)); omega
      have hle2 : v / 128 * 2 ^ (shift + 7) ≤ v * 2 ^ shift := by
        rw [Nat.pow_add]
        have := Nat.zero_le (v % 128 * 2 ^ shift)
        have e7 : (2 : Nat) ^ 7 = 128 := by decide
        rw [e7]; omega
      have hs7 : shift + 7 < 63 := by
        by_contra hc
        have h1 : 2 ^ 63 ≤ 2 ^ (shift + 7) := Nat.pow_le_pow_right (by decide) (by omega)
        have h2 : 2 ^ (shift + 7) ≤ v * 2 ^ shift := by
          rw [Nat.pow_add, Nat.mul_comm]
          exact Nat.mul_le_mul_right _ (by simpa using h')
        omega
      have hx' : x + v % 128 * 2 ^ shift < 2 ^ (shift + 7) := by
        rw [Nat.pow_add]
        have e7 : (2 : Nat) ^ 7 = 128 := by decide
        rw [e7]
        have := Nat.mod_lt v (show 128 > 0 by decide)
        nlinarith
      simp only [decodeVarint]
      rw [if_neg (by omega), hb]
      simp only [ht, and_0x7f, hg]
      rw [if_neg (by omega), or_shift_eq_add x (v % 128) shift hx (by omega)]
      have key := ih (v / 128) (by omega) n (shift + 7) (x + v % 128 * 2 ^ shift)
        (pre ++ [UInt8.ofNat (v % 128 + 128)]) post (by omega) (by omega) (by omega) hx'
      have e1 : pre ++ [UInt8.ofNat (v % 128 + 128)] ++ varint (v / 128) ++ post =
          pre ++ UInt8.ofNat (v % 128 + 128) :: varint (v / 128) ++ post := by simp
      have e2 : (pre ++ [UInt8.ofNat (v % 128 + 128)]).length = pre.length + 1 := by simp
      rw [e1, e2] at key
      rw [key]
      have e3 : x + v % 128 * 2 ^ shift + v / 128 * 2 ^ (shift + 7) = x + v * 2 ^ shift := by
        rw [Nat.pow_add]
        have e7 : (2 : Nat) ^ 7 = 128 := by decide
        rw [e7]; omega
      rw [e3]
      simp only [List.length_cons]
      have e4 : pre.length + 1 + (varint (v / 128)).length =
          pre.length + ((varint (v / 128)).length + 1) := by omega
      rw [e4]


theorem decodeVarint_tag (tag : UInt8) (ht : tag.toNat < 128) (pre post : List UInt8) :
    decodeVarint (pre ++ tag :: post) 10 pre.length 0 0 = .ok (tag.toNat, pre.length + 1) := by
  simp only [decodeVarint]
  rw [if_neg (by omega), getElem?_mid]
  simp only [and_0x7f, Nat.mod_eq_of_lt ht]
  rw [if_pos (by omega)]
  simp only [Nat.shiftLeft_zero, Nat.zero_or]
  rw [Nat.mod_eq_of_lt (by omega)]

theorem readBytesField_spec (field pre post : List UInt8)
    (hl : (pre ++ varint field.length ++ field ++ post).length < 2 ^ 63) :
    readBytesField (pre ++ varint field.length ++ field ++ post) pre.length =
      .ok (field, (pre ++ varint field.length ++ field).length) := by
  have hf : field.length < 2 ^ 63 := by
    simp only [List.length_append] at hl; omega
  have hd := decodeVarint_varint field.length 10 0 0 pre (field ++ post) (by omega) (by omega)
    (by simpa using hf) (by simp)
  have e : pre ++ varint field.length ++ (field ++ post) =
      pre ++ varint field.length ++ field ++ post := by simp
  rw [e] at hd
  simp only [Nat.pow_zero, Nat.mul_one, Nat.zero_add] at hd
  simp only [readBytesField]
  rw [hd]
  simp only []
  rw [if_neg (by omega), if_neg (by simp only [List.length_append] at hl; omega),
    if_neg (by simp only [List.length_append]; omega)]
  have e2 : pre.length + (varint field.length).length = (pre ++ varint field.length).length := by
    simp
  have e3 : pre ++ varint field.length ++ field ++ post =
      (pre ++ varint field.length) ++ (field ++ post) := by simp
  rw [e2, e3, List.drop_left, Nat.add_sub_cancel_left, List.take_left]
  simp
  omega

theorem unmarshalLoop_end (dAtA : List UInt8) (fuel : Nat) (m : MsgSetWithdrawAddress) :
    unmarshalLoop dAtA fuel dAtA.length m = (m, none) := by
  cases fuel <;> simp [unmarshalLoop]

theorem unmarshalLoop_field1 (field pre post : List UInt8) (hne : field ≠ [])
    (hl : (pre ++ fieldBytes 0xa field ++ post).length < 2 ^ 63) (fuel : Nat)
    (m : MsgSetWithdrawAddress) :
    unmarshalLoop (pre ++ fieldBytes 0xa field ++ post) (fuel + 1) pre.length m =
      unmarshalLoop (pre ++ fieldBytes 0xa field ++ post) fuel
        (pre ++ fieldBytes 0xa field).length { m with DelegatorAddress := field } := by
  have hfb : fieldBytes 0xa field = 0xa :: (varint field.length ++ field) := by
    simp [fieldBytes, hne]
  rw [hfb] at hl ⊢
  have e1 : pre ++ (0xa : UInt8) :: (varint field.length ++ field) ++ post =
      pre ++ 0xa :: (varint field.length ++ field ++ post) := by simp
  have e2 : pre ++ (0xa : UInt8) :: (varint field.length ++ field) ++ post =
      (pre ++ [0xa]) ++ varint field.length ++ field ++ post := by simp
  have ht := decodeVarint_tag 0xa (by decide) pre (varint field.length ++ field ++ post)
  rw [← e1] at ht
  have hr := readBytesField_spec field (pre ++ [0xa]) post (by rw [← e2]; exact hl)
  rw [← e2] at hr
  have e3 : (pre ++ [(0xa : UInt8)]).length = pre.length + 1 := by simp
  have e4 : (pre ++ [(0xa : UInt8)] ++ varint field.length ++ field).length =
      (pre ++ (0xa : UInt8) :: (varint field.length ++ field)).length := by simp
  rw [e3, e4] at hr
  simp only [unmarshalLoop]
  rw [if_pos (by simp), ht]
  simp only []
  have w1 : (UInt8.toNat 0xa) &&& 0x7 = 2 := by decide
  have w2 : ((UInt8.toNat 0xa) >>> 3) % 2 ^ 32 = 1 := by decide
  simp only [w1, w2, hr]
  simp

theorem unmarshalLoop_field2 (field pre post : List UInt8) (hne : field ≠ [])
    (hl : (pre ++ fieldBytes 0x12 field ++ post).length < 2 ^ 63) (fuel : Nat)
    (m : MsgSetWithdrawAddress) :
    unmarshalLoop (pre ++ fieldBytes 0x12 field ++ post) (fuel + 1) pre.length m =
      unmarshalLoop (pre ++ fieldBytes 0x12 field ++ post) fuel
        (pre ++ fieldBytes 0x12 field).length { m with WithdrawAddress := field } := by
  have hfb : fieldBytes 0x12 field = 0x12 :: (varint field.length ++ field) := by
    simp [fieldBytes, hne]
  rw [hfb] at hl ⊢
  have e1 : pre ++ (0x12 : UInt8) :: (varint field.length ++ field) ++ post =
      pre ++ 0x12 :: (varint field.length ++ field ++ post) := by simp
  have e2 : pre ++ (0x12 : UInt8) :: (varint field.length ++ field) ++ post =
      (pre ++ [0x12]) ++ varint field.length ++ field ++ post := by simp
  have ht := decodeVarint_tag 0x12 (by decide) pre (varint field.length ++ field ++ post)
  rw [← e1] at ht
  have hr := readBytesField_spec field (pre ++ [0x12]) post (by rw [← e2]; exact hl)
  rw [← e2] at hr
  have e3 : (pre ++ [(0x12 : UInt8)]).length = pre.length + 1 := by simp
  have e4 : (pre ++ [(0x12 : UInt8)] ++ varint field.length ++ field).length =
      (pre ++ (0x12 : UInt8) :: (varint field.length ++ field)).length := by simp
  rw [e3, e4] at hr
  simp only [unmarshalLoop]
  rw [if_pos (by simp), ht]
  simp only []
  have w1 : (UInt8.toNat 0x12) &&& 0x7 = 2 := by decide
  have w2 : ((UInt8.toNat 0x12) >>> 3) % 2 ^ 32 = 2 := by decide
  simp only [w1, w2, hr]
  simp


theorem fieldBytes_length_ge (tag : UInt8) (field : List UInt8) (hne : field ≠ []) :
    2 ≤ (fieldBytes tag field).length := by
  have hpos : field.length > 0 := List.length_pos.mpr hne
  rw [fieldBytes_length, if_pos hpos]; omega

theorem Unmarshal_fields (D W : List UInt8)
    (hl : (fieldBytes 0xa D ++ fieldBytes 0x12 W).length < 2 ^ 63) :
    Unmarshal (fieldBytes 0xa D ++ fieldBytes 0x12 W) ⟨[], []⟩ = (⟨D, W⟩, none) := by
  by_cases hD : D = []
  · by_cases hW : W = []
    · subst hD; subst hW
      simp [Unmarshal, fieldBytes, unmarshalLoop]
    · subst hD
      have e0 : fieldBytes 0xa [] = [] := by simp [fieldBytes]
      rw [e0] at hl ⊢
      have hge := fieldBytes_length_ge 0x12 W hW
      obtain ⟨k, hk⟩ : ∃ k, ([] ++ fieldBytes 0x12 W).length = k + 1 :=
        ⟨(fieldBytes 0x12 W).length - 1, by simp; omega⟩
      have s2 := unmarshalLoop_field2 W [] [] hW (by simpa using hl) k ⟨[], []⟩
      have s3 := unmarshalLoop_end ([] ++ fieldBytes 0x12 W) k ⟨[], W⟩
      simp only [List.append_nil, List.length_nil] at s2
      rw [Unmarshal, hk, s2, s3]
  · by_cases hW : W = []
    · subst hW
      have e0 : fieldBytes 0x12 [] = [] := by simp [fieldBytes]
      rw [e0] at hl ⊢
      have hge := fieldBytes_length_ge 0xa D hD
      obtain ⟨k, hk⟩ : ∃ k, (fieldBytes 0xa D ++ []).length = k + 1 :=
        ⟨(fieldBytes 0xa D).length - 1, by simp; omega⟩
      have s1 := unmarshalLoop_field1 D [] [] hD (by simpa using hl) k ⟨[], []⟩
      have s3 := unmarshalLoop_end (fieldBytes 0xa D ++ []) k ⟨D, []⟩
      simp only [List.nil_append, List.length_nil] at s1
      simp only [List.append_nil] at s1 s3 hk ⊢
      rw [Unmarshal, hk, s1, s3]
    · have hgeD := fieldBytes_length_ge 0xa D hD
      have hgeW := fieldBytes_length_ge 0x12 W hW
      obtain ⟨k, hk⟩ : ∃ k, (fieldBytes 0xa D ++ fieldBytes 0x12 W).length = k + 1 + 1 :=
        ⟨(fieldBytes 0xa D ++ fieldBytes 0x12 W).length - 2, by simp; omega⟩
      have s1 := unmarshalLoop_field1 D [] (fieldBytes 0x12 W) hD (by simpa using hl) (k + 1)
        ⟨[], []⟩
      have s2 := unmarshalLoop_field2 W (fieldBytes 0xa D) [] hW (by simpa using hl) k ⟨D, []⟩
      have s3 := unmarshalLoop_end (fieldBytes 0xa D ++ fieldBytes 0x12 W) k ⟨D, W⟩
      simp only [List.nil_append, List.length_nil] at s1
      simp only [List.append_nil] at s2
      rw [Unmarshal, hk, s1, s2, s3]

/-- C1 (round trip).  For every `MsgSetWithdrawAddress` with fields `D` and `W` whose encoded
size is a Go `int`, `Marshal` returns bytes and no error, and `Unmarshal` of those bytes into
an empty message returns no error and leaves `DelegatorAddress = D`, `WithdrawAddress = W`. -/
theorem Marshal_Unmarshal_roundtrip (D W : List UInt8)
    (h : Size ⟨D, W⟩ < 2 ^ 63) :
    ∃ bs, Marshal ⟨D, W⟩ = .ok bs ∧
      (Unmarshal bs ⟨[], []⟩).2 = none ∧
      (Unmarshal bs ⟨[], []⟩).1.DelegatorAddress = D ∧
      (Unmarshal bs ⟨[], []⟩).1.WithdrawAddress = W := by
  have hD : D.length < 2 ^ 64 := by have := (le_Size ⟨D, W⟩).1; simp only [] at this; omega
  have hW : W.length < 2 ^ 64 := by have := (le_Size ⟨D, W⟩).2; simp only [] at this; omega
  have hsz := Size_eq ⟨D, W⟩ hD hW
  have hm := Marshal_eq ⟨D, W⟩ h
  simp only [] at hsz hm
  have hu := Unmarshal_fields D W (by rw [List.length_append, ← hsz]; exact h)
  exact ⟨_, hm, by rw [hu], by rw [hu], by rw [hu]⟩

/-- Witness of C1 at `D = [1, 2, 3]`, `W = [4, 5]`. -/
theorem Marshal_Unmarshal_roundtrip_witness :
    Size ⟨[1, 2, 3], [4, 5]⟩ < 2 ^ 63 ∧
    ∃ bs, Marshal ⟨[1, 2, 3], [4, 5]⟩ = .ok bs ∧
      (Unmarshal bs ⟨[], []⟩).2 = none ∧
      (Unmarshal bs ⟨[], []⟩).1.DelegatorAddress = [1, 2, 3] ∧
      (Unmarshal bs ⟨[], []⟩).1.WithdrawAddress = [4, 5] :=
  ⟨by decide, Marshal_Unmarshal_roundtrip [1, 2, 3] [4, 5] (by decide)⟩

/-- C2 (wire format).  For every `MsgSetWithdrawAddress` whose encoded size is a Go `int`,
`Marshal` returns no error and exactly `F1 ++ F2`, where `F1` is empty for an empty
`DelegatorAddress` and otherwise `[0x0A] ++ varint(len) ++ DelegatorAddress`, and `F2` is
empty for an empty `WithdrawAddress` and otherwise `[0x12] ++ varint(len) ++ WithdrawAddress`;
the output length is `Size m`. -/
theorem Marshal_wire_format (m : MsgSetWithdrawAddress) (h : Size m < 2 ^ 63) :
    ∃ bs, Marshal m = .ok bs ∧
      bs = (if m.DelegatorAddress = [] then []
            else [0x0A] ++ varint m.DelegatorAddress.length ++ m.DelegatorAddress) ++
           (if m.WithdrawAddress = [] then []
            else [0x12] ++ varint m.WithdrawAddress.length ++ m.WithdrawAddress) ∧
      bs.length = Size m := by
  have hD : m.DelegatorAddress.length < 2 ^ 64 := by have := (le_Size m).1; omega
  have hW : m.WithdrawAddress.length < 2 ^ 64 := by have := (le_Size m).2; omega
  refine ⟨_, Marshal_eq m h, ?_, ?_⟩
  · simp only [fieldBytes]
    split <;> split <;> simp
  · rw [Size_eq m hD hW, List.length_append]

/-- Witness of C2 at a message with an empty delegator address. -/
theorem Marshal_wire_format_witness :
    Size ⟨[], [7, 8, 9]⟩ < 2 ^ 63 ∧
    ∃ bs, Marshal ⟨[], [7, 8, 9]⟩ = .ok bs ∧
      bs = (if ([] : List UInt8) = [] then []
            else [0x0A] ++ varint ([] : List UInt8).length ++ []) ++
           (if ([7, 8, 9] : List UInt8) = [] then []
            else [0x12] ++ varint [(7 : UInt8), 8, 9].length ++ [7, 8, 9]) ∧
      bs.length = Size ⟨[], [7, 8, 9]⟩ :=
  ⟨by decide, Marshal_wire_format ⟨[], [7, 8, 9]⟩ (by decide)⟩

end Distribution

namespace Bank

theorem sendEnabledDenomLoop_first (d : String) (dflt : Bool) (e : SendEnabled)
    (post : List (Option SendEnabled)) (he : e.Denom = d) :
    ∀ pre : List SendEnabled, (∀ x ∈ pre, x.Denom ≠ d) →
      sendEnabledDenomLoop d dflt (pre.map some ++ some e :: post) = .ok e.Enabled := by
  intro pre
  induction pre with
  | nil => intro _; simp [sendEnabledDenomLoop, he]
  | cons a t ih =>
    intro h
    have ha : a.Denom ≠ d := h a (List.mem_cons_self _ _)
    simp only [List.map_cons, List.cons_append, sendEnabledDenomLoop, if_neg ha]
    exact ih (fun x hx => h x (List.mem_cons_of_mem _ hx))

theorem sendEnabledDenomLoop_none (d : String) (dflt : Bool) :
    ∀ l : List SendEnabled, (∀ x ∈ l, x.Denom ≠ d) →
      sendEnabledDenomLoop d dflt (l.map some) = .ok dflt := by
  intro l
  induction l with
  | nil => intro _; rfl
  | cons a t ih =>
    intro h
    have ha : a.Denom ≠ d := h a (List.mem_cons_self _ _)
    simp only [List.map_cons, sendEnabledDenomLoop, if_neg ha]
    exact ih (fun x hx => h x (List.mem_cons_of_mem _ hx))

theorem setSendEnabledLoop_eq (d : String) :
    ∀ (l : List SendEnabled) (acc : SendEnabledParams),
      setSendEnabledLoop d (l.map some) acc =
        .ok (acc ++ (l.filter (fun x => decide (x.Denom ≠ d))).map some) := by
  intro l
  induction l with
  | nil => intro acc; simp [setSendEnabledLoop]
  | cons a t ih =>
    intro acc
    by_cases ha : a.Denom = d
    · simp [setSendEnabledLoop, ha, ih]
    · simp [setSendEnabledLoop, ha, ih, NewSendEnabled]

theorem SetSendEnabledParam_eq (p : Params) (l : List SendEnabled)
    (hl : p.SendEnabled = l.map some) (d : String) (b : Bool) :
    p.SetSendEnabledParam d b =
      .ok (NewParams p.DefaultSendEnabled
        ((l.filter (fun x => decide (x.Denom ≠ d))).map some ++ [NewSendEnabled d b])
        p.UnrestrictedTokenTransfer) := by
  simp only [Params.SetSendEnabledParam, hl, setSendEnabledLoop_eq, List.nil_append]

/-- C3, the claim as stated fails: in the list `nil, atom ↦ false` the first (and only) entry
of denom `atom` has the flag `false`, but `SendEnabledDenom("atom")` reads the nil entry first
and panics instead of returning `false`. -/
theorem SendEnabledDenom_nil_entry_panics :
    (some ⟨"atom", false⟩ : Option SendEnabled) ∈
      (Params.mk [none, some ⟨"atom", false⟩] true false).SendEnabled ∧
    Params.SendEnabledDenom ⟨[none, some ⟨"atom", false⟩], true, false⟩ "atom" =
      .error .nilPointerDereference ∧
    Params.SendEnabledDenom ⟨[none, some ⟨"atom", false⟩], true, false⟩ "atom" ≠ .ok false :=
  ⟨by decide, rfl, fun h => by cases h⟩

/-- C3, amended.  For every `Params p` and denom `d`: if an entry of `p.SendEnabled` has
`Denom = d` and no entry before the first such entry is nil, `p.SendEnabledDenom d` returns
the `Enabled` flag of that first entry (whatever follows it); if no entry is nil and none has
`Denom = d`, it returns `p.DefaultSendEnabled`. -/
theorem SendEnabledDenom_first_or_default (p : Params) (d : String) :
    (∀ (pre : List SendEnabled) (e : SendEnabled) (post : List (Option SendEnabled)),
      p.SendEnabled = pre.map some ++ some e :: post → (∀ x ∈ pre, x.Denom ≠ d) →
      e.Denom = d → p.SendEnabledDenom d = .ok e.Enabled) ∧
    (∀ l : List SendEnabled, p.SendEnabled = l.map some → (∀ x ∈ l, x.Denom ≠ d) →
      p.SendEnabledDenom d = .ok p.DefaultSendEnabled) := by
  constructor
  · intro pre e post hp hpre he
    rw [Params.SendEnabledDenom, hp]
    exact sendEnabledDenomLoop_first d _ e post he pre hpre
  · intro l hp h
    rw [Params.SendEnabledDenom, hp]
    exact sendEnabledDenomLoop_none d _ l h

/-- Witness of C3: with entries `a ↦ true`, `b ↦ false`, `nil`, `b ↦ true` and default
`true`, the denom `b` reads its first entry; with entries `a ↦ true`, `b ↦ false` the unlisted
denom `c` reads the default. -/
theorem SendEnabledDenom_first_or_default_witness :
    Params.SendEnabledDenom
      ⟨[some ⟨"a", true⟩, some ⟨"b", false⟩, none, some ⟨"b", true⟩], true, false⟩ "b" =
      .ok false ∧
    Params.SendEnabledDenom ⟨[some ⟨"a", true⟩, some ⟨"b", false⟩], true, false⟩ "c" =
      .ok true :=
  ⟨(SendEnabledDenom_first_or_default
      ⟨[some ⟨"a", true⟩, some ⟨"b", false⟩, none, some ⟨"b", true⟩], true, false⟩ "b").1
      [⟨"a", true⟩] ⟨"b", false⟩ [none, some ⟨"b", true⟩] rfl (by decide) rfl,
   (SendEnabledDenom_first_or_default
      ⟨[some ⟨"a", true⟩, some ⟨"b", false⟩], true, false⟩ "c").2
      [⟨"a", true⟩, ⟨"b", false⟩] rfl (by decide)⟩

/-- C4, the claim as stated fails: on a `Params` whose list holds a nil entry,
`SetSendEnabledParam("atom", true)` panics, so there is no result whose
`SendEnabledDenom("atom")` could be `true`. -/
theorem SetSendEnabledParam_nil_entry_panics :
    Params.SetSendEnabledParam ⟨[none], true, false⟩ "atom" true =
      .error .nilPointerDereference ∧
    (Params.SetSendEnabledParam ⟨[none], true, false⟩ "atom" true >>=
      fun q => q.SendEnabledDenom "atom") ≠ .ok true :=
  ⟨rfl, fun h => by cases h⟩

/-- C4, amended.  For every `Params p` without a nil entry (also one that lists the denom
several times), every denom `d` and every boolean `b`: `p.SetSendEnabledParam(d, b)` returns
a `Params` whose `SendEnabledDenom(d)` is `b`. -/
theorem SetSendEnabledParam_SendEnabledDenom (p : Params) (l : List SendEnabled)
    (hl : p.SendEnabled = l.map some) (d : String) (b : Bool) :
    ∃ q, p.SetSendEnabledParam d b = .ok q ∧ q.SendEnabledDenom d = .ok b := by
  refine ⟨_, SetSendEnabledParam_eq p l hl d b, ?_⟩
  simp only [Params.SendEnabledDenom, NewParams, NewSendEnabled]
  exact sendEnabledDenomLoop_first d _ ⟨d, b⟩ [] rfl _
    (fun x hx => by simpa using (List.mem_filter.mp hx).2)

/-- Witness of C4: the denom `b` listed twice, set to `true`. -/
theorem SetSendEnabledParam_SendEnabledDenom_witness :
    (Params.mk [some ⟨"a", true⟩, some ⟨"b", false⟩, some ⟨"b", false⟩] true false).SendEnabled =
      [(⟨"a", true⟩ : SendEnabled), ⟨"b", false⟩, ⟨"b", false⟩].map some ∧
    ∃ q, Params.SetSendEnabledParam
        ⟨[some ⟨"a", true⟩, some ⟨"b", false⟩, some ⟨"b", false⟩], true, false⟩ "b" true =
        .ok q ∧ q.SendEnabledDenom "b" = .ok true :=
  ⟨rfl, SetSendEnabledParam_SendEnabledDenom
    ⟨[some ⟨"a", true⟩, some ⟨"b", false⟩, some ⟨"b", false⟩], true, false⟩
    [⟨"a", true⟩, ⟨"b", false⟩, ⟨"b", false⟩] rfl "b" true⟩

/-- C6.  The default parameters allow send transfers for all coin denoms:
`DefaultParams().SendEnabledDenom(d)` returns `true` for every denom `d`, and
`DefaultParams().UnrestrictedTokenTransfer = false`. -/
theorem DefaultParams_SendEnabledDenom (d : String) :
    DefaultParams.SendEnabledDenom d = .ok true ∧
    DefaultParams.UnrestrictedTokenTransfer = false := by
  constructor <;> rfl

/-- C7, the code at the input of the claim: with `SendEnabled = [NewSendEnabled("", false)]`
and `DefaultSendEnabled = true`, `SendEnabledDenom("atom")` returns `true`, the value of
`DefaultSendEnabled`, and not the flag `false` of the entry with the empty denom. -/
theorem SendEnabledDenom_empty_denom_entry_ignored :
    (NewParams true [NewSendEnabled "" false] false).SendEnabledDenom "atom" = .ok true ∧
    (NewParams true [NewSendEnabled "" false] false).SendEnabledDenom "atom" ≠
      .ok (⟨"", false⟩ : SendEnabled).Enabled :=
  ⟨rfl, fun h => by cases h⟩

theorem sendEnabledDenomLoop_filter_ne (d other : String) (hne : other ≠ d) (dflt : Bool) :
    ∀ l : List SendEnabled,
      sendEnabledDenomLoop other dflt ((l.filter (fun x => decide (x.Denom ≠ d))).map some) =
        sendEnabledDenomLoop other dflt (l.map some) := by
  intro l
  induction l with
  | nil => rfl
  | cons a t ih =>
    by_cases ha : a.Denom = d
    · have hao : a.Denom ≠ other := fun h => hne (h.symm.trans ha)
      have hd : decide (a.Denom ≠ d) = false := by simpa using ha
      simp only [List.filter, hd, List.map_cons, sendEnabledDenomLoop, if_neg hao]
      exact ih
    · have hd : decide (a.Denom ≠ d) = true := by simpa using ha
      simp only [List.filter, hd, List.map_cons, sendEnabledDenomLoop]
      split
      · rfl
      · exact ih

theorem sendEnabledDenomLoop_append_ne (other : String) (dflt : Bool) (e : SendEnabled)
    (he : e.Denom ≠ other) : ∀ l : List SendEnabled,
      sendEnabledDenomLoop other dflt (l.map some ++ [some e]) =
        sendEnabledDenomLoop other dflt (l.map some) := by
  intro l
  induction l with
  | nil => simp [sendEnabledDenomLoop, he]
  | cons a t ih =>
    simp only [List.map_cons, List.cons_append, sendEnabledDenomLoop]
    split
    · rfl
    · exact ih

/-- C15, the claim as stated fails: in the list `atom ↦ false, nil` the denom `atom` reads
`false`, but `SetSendEnabledParam("stake", true)` walks the whole list, reads the nil entry
and panics, so there is no result in which `atom` could read the same. -/
theorem SetSendEnabledParam_frame_nil_entry_panics :
    Params.SendEnabledDenom ⟨[some ⟨"atom", false⟩, none], true, false⟩ "atom" = .ok false ∧
    Params.SetSendEnabledParam ⟨[some ⟨"atom", false⟩, none], true, false⟩ "stake" true =
      .error .nilPointerDereference ∧
    (Params.SetSendEnabledParam ⟨[some ⟨"atom", false⟩, none], true, false⟩ "stake" true >>=
      fun q => q.SendEnabledDenom "atom") ≠
      Params.SendEnabledDenom ⟨[some ⟨"atom", false⟩, none], true, false⟩ "atom" :=
  ⟨rfl, rfl, fun h => by cases h⟩

/-- C15, amended (frame of `SetSendEnabledParam`).  For every `Params p` without a nil entry,
denom `d`, boolean `b` and denom `other` different from `d`: `p.SetSendEnabledParam(d, b)`
returns a `Params` whose `SendEnabledDenom(other)` is `p.SendEnabledDenom(other)`, whose
`DefaultSendEnabled` and `UnrestrictedTokenTransfer` are those of `p`, and whose entries are
the entries of `p` of denoms other than `d`, in their original order, followed by the entry
`(d, b)`. -/
theorem SetSendEnabledParam_frame (p : Params) (l : List SendEnabled)
    (hl : p.SendEnabled = l.map some) (d : String) (b : Bool) (other : String)
    (hne : other ≠ d) :
    ∃ q, p.SetSendEnabledParam d b = .ok q ∧
      q.SendEnabledDenom other = p.SendEnabledDenom other ∧
      q.DefaultSendEnabled = p.DefaultSendEnabled ∧
      q.UnrestrictedTokenTransfer = p.UnrestrictedTokenTransfer ∧
      q.SendEnabled =
        (l.filter (fun e => decide (e.Denom ≠ d))).map some ++ [NewSendEnabled d b] ∧
      q.SendEnabled.reduceOption.filter (fun e => decide (e.Denom ≠ d)) =
        l.filter (fun e => decide (e.Denom ≠ d)) := by
  refine ⟨_, SetSendEnabledParam_eq p l hl d b, ?_, rfl, rfl, rfl, ?_⟩
  · simp only [Params.SendEnabledDenom, NewParams, NewSendEnabled, hl]
    rw [sendEnabledDenomLoop_append_ne other _ ⟨d, b⟩ (fun h => hne h.symm),
      sendEnabledDenomLoop_filter_ne d other hne]
  · simp only [NewParams, NewSendEnabled, List.reduceOption_append,
      List.reduceOption_map, List.filter_append, List.filter_filter]
    simp [List.reduceOption]

/-- Witness of C15: setting `b` in the list `a, b, c, b` leaves the denom `c` as it was. -/
theorem SetSendEnabledParam_frame_witness :
    (Params.mk [some ⟨"a", true⟩, some ⟨"b", false⟩, some ⟨"c", false⟩, some ⟨"b", true⟩]
      true false).SendEnabled =
      [(⟨"a", true⟩ : SendEnabled), ⟨"b", false⟩, ⟨"c", false⟩, ⟨"b", true⟩].map some ∧
    "c" ≠ "b" ∧
    ∃ q, Params.SetSendEnabledParam
        ⟨[some ⟨"a", true⟩, some ⟨"b", false⟩, some ⟨"c", false⟩, some ⟨"b", true⟩], true,
          false⟩ "b" true = .ok q ∧
      q.SendEnabledDenom "c" =
        Params.SendEnabledDenom
          ⟨[some ⟨"a", true⟩, some ⟨"b", false⟩, some ⟨"c", false⟩, some ⟨"b", true⟩], true,
            false⟩ "c" ∧
      q.SendEnabled = [some ⟨"a", true⟩, some ⟨"c", false⟩, some ⟨"b", true⟩] := by
  refine ⟨rfl, by decide, ?_⟩
  obtain ⟨q, h1, h2, _, _, h5, _⟩ := SetSendEnabledParam_frame
    ⟨[some ⟨"a", true⟩, some ⟨"b", false⟩, some ⟨"c", false⟩, some ⟨"b", true⟩], true, false⟩
    [⟨"a", true⟩, ⟨"b", false⟩, ⟨"c", false⟩, ⟨"b", true⟩] rfl "b" true "c" (by decide)
  exact ⟨q, h1, h2, by rw [h5]; decide⟩

end Bank

namespace IBC

theorem Map.get_put_self {κ ν : Type} [DecidableEq κ] (key : κ) (val : ν) :
    ∀ m : Map κ ν, (m.put key val).get key = some val := by
  intro m
  induction m with
  | nil => simp [Map.put, Map.get]
  | cons a t ih =>
    obtain ⟨k, v⟩ := a
    by_cases h : k = key
    · simp [Map.put, Map.get, h]
    · simp [Map.put, Map.get, h, ih]

theorem Map.get_put_ne {κ ν : Type} [DecidableEq κ] (key other : κ) (val : ν)
    (hne : other ≠ key) : ∀ m : Map κ ν, (m.put key val).get other = m.get other := by
  intro m
  induction m with
  | nil => simp [Map.put, Map.get, Ne.symm hne]
  | cons a t ih =>
    obtain ⟨k, v⟩ := a
    by_cases h : k = key
    · subst h
      simp [Map.put, Map.get, Ne.symm hne]
    · by_cases h2 : k = other
      · subst h2
        simp [Map.put, Map.get, h]
      · simp [Map.put, Map.get, h, h2, ih]

theorem validate_ok_height_root (reg : Registry) (cs : ConsensusState) (header : Header)
    (newState : ConsensusState) (h : validate reg cs header = .ok newState) :
    newState.height = header.height ∧ newState.root = header.root := by
  unfold validate at h
  split at h
  · cases h
  · split at h
    · cases h
    · split at h
      · cases h
      · split at h
        · split at h
          · rename_i hc
            cases h
            exact hc
          · cases h
            exact ⟨rfl, rfl⟩
        · cases h
          exact ⟨rfl, rfl⟩

/-- C8 (update atomicity).  For every store, every client `c` tracked under `clientId` and
every header for which the validity predicate fails on `c`'s latest consensus state, the
store after `UpdateClient(clientId, header)` is the store before it, so the `ClientState`
(latest consensus state, `verifiedRoots`, frozen flag) is identical, and the call returns an
error, the one of the validity predicate when the client is active. -/
theorem UpdateClient_atomic (reg : Registry) (store : Store) (clientId : ClientId)
    (header : Header) (c : ClientState) (e : Error)
    (hc : store.get clientId = some c)
    (hv : validate reg c.consensusState header = .error e) :
    (UpdateClient reg store clientId header).2 = store ∧
    (UpdateClient reg store clientId header).2.get clientId = some c ∧
    ∃ err, (UpdateClient reg store clientId header).1 = .error err ∧
      (c.frozen = false → err = e) := by
  have key : UpdateClient reg store clientId header =
      (.error (if c.frozen then .ClientFrozenError else e), store) := by
    simp only [UpdateClient, hc, hv]
    split <;> rfl
  rw [key]
  refine ⟨rfl, hc, _, rfl, ?_⟩
  intro hf
  simp [hf]

/-- Witness of C8, Scenario 2 of §8: the client at height 1 and a header of height 1. -/
theorem UpdateClient_atomic_witness :
    scenarioStore.get "chain-A" = some ⟨"chain-A", ⟨1, [0xAA], 0⟩, [(1, [0xAA])], false⟩ ∧
    validate sampleRegistry ⟨1, [0xAA], 0⟩ ⟨1, [1], none, [0xBB]⟩ = .error .StaleHeaderError ∧
    (UpdateClient sampleRegistry scenarioStore "chain-A" ⟨1, [1], none, [0xBB]⟩).2 =
      scenarioStore ∧
    (UpdateClient sampleRegistry scenarioStore "chain-A" ⟨1, [1], none, [0xBB]⟩).2.get
      "chain-A" = some ⟨"chain-A", ⟨1, [0xAA], 0⟩, [(1, [0xAA])], false⟩ ∧
    ∃ err, (UpdateClient sampleRegistry scenarioStore "chain-A" ⟨1, [1], none, [0xBB]⟩).1 =
        .error err ∧
      ((⟨"chain-A", ⟨1, [0xAA], 0⟩, [(1, [0xAA])], false⟩ : ClientState).frozen = false →
        err = .StaleHeaderError) :=
  ⟨rfl, rfl, UpdateClient_atomic sampleRegistry scenarioStore "chain-A" ⟨1, [1], none, [0xBB]⟩
    ⟨"chain-A", ⟨1, [0xAA], 0⟩, [(1, [0xAA])], false⟩ .StaleHeaderError rfl rfl⟩

theorem step_frozen (reg : Registry) (store : Store) (clientId : ClientId) (c : ClientState)
    (hc : store.get clientId = some c) (hf : c.frozen = true) (op : Op) :
    (step reg store op).get clientId = some c := by
  cases op with
  | createClient id cs =>
    simp only [step, CreateClient]
    cases hg : store.get id with
    | some c2 => exact hc
    | none =>
      have hne : clientId ≠ id := by
        rintro rfl
        rw [hg] at hc
        cases hc
      simp only []
      rw [Map.get_put_ne id clientId _ hne]
      exact hc
  | updateClient id header =>
    simp only [step, UpdateClient]
    cases hg : store.get id with
    | none => exact hc
    | some c2 =>
      simp only []
      by_cases hfz : c2.frozen = true
      · rw [if_pos hfz]; exact hc
      · rw [if_neg hfz]
        cases hv : validate reg c2.consensusState header with
        | error e => exact hc
        | ok newState =>
          have hne : clientId ≠ id := by
            rintro rfl
            rw [hg] at hc
            cases hc
            exact hfz hf
          simp only []
          split
          · exact hc
          · simp only []
            rw [Map.get_put_ne id clientId _ hne]
            exact hc
  | submitMisbehaviour id a b =>
    simp only [step, SubmitMisbehaviour]
    cases hg : store.get id with
    | none => exact hc
    | some c2 =>
      simp only []
      by_cases hfz : c2.frozen = true
      · rw [if_pos hfz]
        split <;> exact hc
      · rw [if_neg hfz]
        split
        · have hne : clientId ≠ id := by
            rintro rfl
            rw [hg] at hc
            cases hc
            exact hfz hf
          simp only []
          rw [Map.get_put_ne id clientId _ hne]
          exact hc
        · exact hc
  | verifyRoot id height root =>
    simp only [step, VerifyRoot]
    split
    · exact hc
    · split
      · exact hc
      · split <;> exact hc

theorem run_frozen (reg : Registry) (clientId : ClientId) (c : ClientState)
    (hf : c.frozen = true) (ops : List Op) :
    ∀ store : Store, store.get clientId = some c → (run reg store ops).get clientId = some c := by
  induction ops with
  | nil => intro store hc; exact hc
  | cons op rest ih =>
    intro store hc
    simp only [run, List.foldl_cons]
    exact ih _ (step_frozen reg store clientId c hc hf op)

/-- C9 (monotonic freeze).  Once a client is frozen, no sequence of later operations of the
manager (`UpdateClient`, `SubmitMisbehaviour`, and also `CreateClient` and `VerifyRoot`)
changes its latest consensus state or its `verifiedRoots`, and `frozen` stays `true`. -/
theorem frozen_monotonic (reg : Registry) (store : Store) (clientId : ClientId)
    (c : ClientState) (hc : store.get clientId = some c) (hf : c.frozen = true)
    (ops : List Op) :
    ∃ c2, (run reg store ops).get clientId = some c2 ∧
      c2.consensusState = c.consensusState ∧ c2.verifiedRoots = c.verifiedRoots ∧
      c2.frozen = true :=
  ⟨c, run_frozen reg clientId c hf ops store hc, rfl, rfl, hf⟩

/-- Witness of C9, Scenario 3 of §8: on the frozen client, an update with a well-signed
header of height 6 and a further misbehaviour submission change nothing. -/
theorem frozen_monotonic_witness :
    frozenStore.get "chain-A" =
      some ⟨"chain-A", ⟨5, [0xAA], 0⟩, [(1, [0xA1]), (5, [0xAA])], true⟩ ∧
    (⟨"chain-A", ⟨5, [0xAA], 0⟩, [(1, [0xA1]), (5, [0xAA])], true⟩ : ClientState).frozen = true ∧
    ∃ c2, (run sampleRegistry frozenStore
        [.updateClient "chain-A" ⟨6, [1], none, [0xBB]⟩,
         .submitMisbehaviour "chain-A" ⟨6, [1], none, [0xB1]⟩ ⟨6, [1], none, [0xB2]⟩]).get
        "chain-A" = some c2 ∧
      c2.consensusState = ⟨5, [0xAA], 0⟩ ∧ c2.verifiedRoots = [(1, [0xA1]), (5, [0xAA])] ∧
      c2.frozen = true :=
  ⟨rfl, rfl, frozen_monotonic sampleRegistry frozenStore "chain-A"
    ⟨"chain-A", ⟨5, [0xAA], 0⟩, [(1, [0xA1]), (5, [0xAA])], true⟩ rfl rfl
    [.updateClient "chain-A" ⟨6, [1], none, [0xBB]⟩,
     .submitMisbehaviour "chain-A" ⟨6, [1], none, [0xB1]⟩ ⟨6, [1], none, [0xB2]⟩]⟩

theorem VerifyRoot_ok (store : Store) (clientId : ClientId) (c : ClientState) (height : Nat)
    (root : CommitmentRoot) (hc : store.get clientId = some c)
    (hr : c.verifiedRoots.get height = some root) :
    (VerifyRoot store clientId height root).1 = .ok () := by
  simp [VerifyRoot, hc, hr]

theorem step_latestRecorded (reg : Registry) (store : Store) (h : latestRecorded store)
    (op : Op) : latestRecorded (step reg store op) := by
  intro clientId c
  cases op with
  | createClient id cs =>
    simp only [step, CreateClient]
    cases hg : store.get id with
    | some c2 => exact h clientId c
    | none =>
      simp only []
      by_cases hid : clientId = id
      · subst hid
        rw [Map.get_put_self]
        intro hc
        cases hc
        simp [Map.get]
      · rw [Map.get_put_ne id clientId _ hid]
        exact h clientId c
  | updateClient id header =>
    simp only [step, UpdateClient]
    cases hg : store.get id with
    | none => exact h clientId c
    | some c2 =>
      simp only []
      split
      · exact h clientId c
      · cases hv : validate reg c2.consensusState header with
        | error e => exact h clientId c
        | ok newState =>
          simp only []
          split
          · exact h clientId c
          · simp only []
            by_cases hid : clientId = id
            · subst hid
              rw [Map.get_put_self]
              intro hc
              cases hc
              simp only []
              rw [(validate_ok_height_root reg _ _ _ hv).1]
              exact Map.get_put_self _ _ _
            · rw [Map.get_put_ne id clientId _ hid]
              exact h clientId c
  | submitMisbehaviour id a b =>
    simp only [step, SubmitMisbehaviour]
    cases hg : store.get id with
    | none => exact h clientId c
    | some c2 =>
      simp only []
      split
      · split <;> exact h clientId c
      · split
        · simp only []
          by_cases hid : clientId = id
          · subst hid
            rw [Map.get_put_self]
            intro hc
            cases hc
            exact h clientId c2 hg
          · rw [Map.get_put_ne id clientId _ hid]
            exact h clientId c
        · exact h clientId c
  | verifyRoot id height root =>
    simp only [step, VerifyRoot]
    split
    · exact h clientId c
    · split
      · exact h clientId c
      · split <;> exact h clientId c

theorem run_latestRecorded (reg : Registry) (ops : List Op) :
    ∀ store : Store, latestRecorded store → latestRecorded (run reg store ops) := by
  induction ops with
  | nil => intro store h; exact h
  | cons op rest ih =>
    intro store h
    simp only [run, List.foldl_cons]
    exact ih _ (step_latestRecorded reg store h op)

theorem UpdateClient_ok (reg : Registry) (store : Store) (clientId : ClientId)
    (header : Header) (newHeight : Nat)
    (h : (UpdateClient reg store clientId header).1 = .ok newHeight) :
    ∃ c, (UpdateClient reg store clientId header).2.get clientId = some c ∧
      newHeight = header.height ∧ c.consensusState.height = header.height ∧
      c.consensusState.root = header.root ∧
      c.verifiedRoots.get header.height = some c.consensusState.root := by
  unfold UpdateClient at h ⊢
  cases hg : store.get clientId with
  | none => rw [hg] at h; cases h
  | some c0 =>
    rw [hg] at h
    simp only [] at h ⊢
    by_cases hfz : c0.frozen = true
    · rw [if_pos hfz] at h; cases h
    · rw [if_neg hfz] at h ⊢
      cases hv : validate reg c0.consensusState header with
      | error e => rw [hv] at h; cases h
      | ok newState =>
        rw [hv] at h
        simp only [] at h ⊢
        by_cases hrec : recordsOtherRoot c0.verifiedRoots header.height newState.root = true
        · rw [if_pos hrec] at h; cases h
        · rw [if_neg hrec] at h ⊢
          simp only [] at h ⊢
          have hh := validate_ok_height_root reg _ _ _ hv
          rw [Map.get_put_self]
          refine ⟨_, rfl, ?_, hh.1, hh.2, Map.get_put_self _ _ _⟩
          cases h
          exact hh.1

theorem recordsOtherRoot_false (verifiedRoots : Map Nat CommitmentRoot) (height : Nat)
    (root recorded : CommitmentRoot)
    (h : ¬ recordsOtherRoot verifiedRoots height root = true)
    (hr : verifiedRoots.get height = some recorded) : recorded = root := by
  simp only [recordsOtherRoot, hr] at h
  simpa using h

theorem step_keeps_entry (reg : Registry) (store : Store) (clientId : ClientId)
    (c : ClientState) (height : Nat) (root : CommitmentRoot)
    (hc : store.get clientId = some c) (hr : c.verifiedRoots.get height = some root)
    (op : Op) :
    ∃ c2, (step reg store op).get clientId = some c2 ∧
      c2.verifiedRoots.get height = some root := by
  cases op with
  | createClient id cs =>
    simp only [step, CreateClient]
    cases hg : store.get id with
    | some c2 => exact ⟨c, hc, hr⟩
    | none =>
      have hne : clientId ≠ id := by
        rintro rfl
        rw [hg] at hc
        cases hc
      simp only []
      rw [Map.get_put_ne id clientId _ hne]
      exact ⟨c, hc, hr⟩
  | updateClient id header =>
    simp only [step, UpdateClient]
    cases hg : store.get id with
    | none => exact ⟨c, hc, hr⟩
    | some c2 =>
      simp only []
      split
      · exact ⟨c, hc, hr⟩
      · cases hv : validate reg c2.consensusState header with
        | error e => exact ⟨c, hc, hr⟩
        | ok newState =>
          simp only []
          by_cases hrec : recordsOtherRoot c2.verifiedRoots header.height newState.root = true
          · rw [if_pos hrec]
            exact ⟨c, hc, hr⟩
          · rw [if_neg hrec]
            simp only []
            by_cases hid : clientId = id
            · subst hid
              rw [hg] at hc
              cases hc
              rw [Map.get_put_self]
              refine ⟨_, rfl, ?_⟩
              simp only []
              by_cases hht : height = header.height
              · rw [hht] at hr ⊢
                rw [Map.get_put_self, recordsOtherRoot_false _ _ _ _ hrec hr]
              · rw [Map.get_put_ne header.height height _ hht]
                exact hr
            · rw [Map.get_put_ne id clientId _ hid]
              exact ⟨c, hc, hr⟩
  | submitMisbehaviour id a b =>
    simp only [step, SubmitMisbehaviour]
    cases hg : store.get id with
    | none => exact ⟨c, hc, hr⟩
    | some c2 =>
      simp only []
      split
      · split <;> exact ⟨c, hc, hr⟩
      · split
        · simp only []
          by_cases hid : clientId = id
          · subst hid
            rw [Map.get_put_self]
            rw [hg] at hc
            cases hc
            exact ⟨_, rfl, hr⟩
          · rw [Map.get_put_ne id clientId _ hid]
            exact ⟨c, hc, hr⟩
        · exact ⟨c, hc, hr⟩
  | verifyRoot id h r =>
    simp only [step, VerifyRoot]
    split
    · exact ⟨c, hc, hr⟩
    · split
      · exact ⟨c, hc, hr⟩
      · split <;> exact ⟨c, hc, hr⟩

theorem run_keeps_entry (reg : Registry) (clientId : ClientId) (height : Nat)
    (root : CommitmentRoot) (ops : List Op) :
    ∀ (store : Store) (c : ClientState), store.get clientId = some c →
      c.verifiedRoots.get height = some root →
      ∃ c2, (run reg store ops).get clientId = some c2 ∧
        c2.verifiedRoots.get height = some root := by
  induction ops with
  | nil => intro store c hc hr; exact ⟨c, hc, hr⟩
  | cons op rest ih =>
    intro store c hc hr
    obtain ⟨c1, h1, h2⟩ := step_keeps_entry reg store clientId c height root hc hr op
    exact ih (step reg store op) c1 h1 h2

/-- C10 (root persistence).  After every successful `UpdateClient(id, h)` the client's
`verifiedRoots` records the resulting root `r` at `h.height`, and `VerifyRoot(id, h.height, r)`
succeeds on the resulting store and on the store after any sequence of later operations of
the manager, further updates of the same client and its freezing by `SubmitMisbehaviour`
included; and in every store reached from the empty one, `verifiedRoots` of every client has
the entry of its latest consensus state at `latestConsensusState.height`. -/
theorem root_persistence (reg : Registry) :
    (∀ (store : Store) (clientId : ClientId) (header : Header) (newHeight : Nat),
      (UpdateClient reg store clientId header).1 = .ok newHeight →
      ∃ c, (UpdateClient reg store clientId header).2.get clientId = some c ∧
        c.consensusState.height = header.height ∧
        c.consensusState.root = header.root ∧
        c.verifiedRoots.get header.height = some c.consensusState.root ∧
        ∀ ops : List Op,
          (VerifyRoot (run reg (UpdateClient reg store clientId header).2 ops) clientId
            header.height c.consensusState.root).1 = .ok ()) ∧
    (∀ (ops : List Op) (clientId : ClientId) (c : ClientState),
      (run reg [] ops).get clientId = some c →
      c.verifiedRoots.get c.consensusState.height = some c.consensusState.root) := by
  constructor
  · intro store clientId header newHeight h
    obtain ⟨c, hc, _, hh, hroot, hr⟩ := UpdateClient_ok reg store clientId header newHeight h
    refine ⟨c, hc, hh, hroot, hr, ?_⟩
    intro ops
    obtain ⟨c2, h1, h2⟩ := run_keeps_entry reg clientId header.height c.consensusState.root
      ops _ c hc hr
    exact VerifyRoot_ok _ clientId c2 _ _ h1 h2
  · intro ops clientId c hc
    have hinv : latestRecorded (run reg [] ops) :=
      run_latestRecorded reg ops [] (by intro id c0 h0; cases h0)
    exact hinv clientId c hc

/-- Witness of C10 on a client whose kind accepts heights in any order: the root `0xBB`
recorded at height 2 is still verified after a rejected update at height 2 with the root
`0xCC`, an update at height 3, an update back at height 1 and the freezing of the client. -/
theorem root_persistence_witness :
    (UpdateClient looseRegistry looseStore "chain-L" ⟨2, [1], none, [0xBB]⟩).1 = .ok 2 ∧
    (VerifyRoot (run looseRegistry
      (UpdateClient looseRegistry looseStore "chain-L" ⟨2, [1], none, [0xBB]⟩).2
      [.updateClient "chain-L" ⟨2, [1], none, [0xCC]⟩,
       .updateClient "chain-L" ⟨3, [1], none, [0xDD]⟩,
       .updateClient "chain-L" ⟨1, [1], none, [0xAA]⟩,
       .submitMisbehaviour "chain-L" ⟨4, [1], none, [0xE1]⟩ ⟨4, [1], none, [0xE2]⟩])
      "chain-L" 2 [0xBB]).1 = .ok () := by
  refine ⟨rfl, ?_⟩
  obtain ⟨c, hc, _, hroot, _, hv⟩ := (root_persistence looseRegistry).1 looseStore "chain-L"
    ⟨2, [1], none, [0xBB]⟩ 2 rfl
  have hv2 := hv
    [.updateClient "chain-L" ⟨2, [1], none, [0xCC]⟩,
     .updateClient "chain-L" ⟨3, [1], none, [0xDD]⟩,
     .updateClient "chain-L" ⟨1, [1], none, [0xAA]⟩,
     .submitMisbehaviour "chain-L" ⟨4, [1], none, [0xE1]⟩ ⟨4, [1], none, [0xE2]⟩]
  rw [hroot] at hv2
  exact hv2

/-- C12 (idempotent freeze).  For every active client and every valid misbehaviour evidence
`(headerA, headerB)`, `SubmitMisbehaviour` with that evidence returns success, leaves the
client frozen, and a second call with the same evidence returns success again and yields the
same store as the first call. -/
theorem SubmitMisbehaviour_idempotent (reg : Registry) (store : Store) (clientId : ClientId)
    (c : ClientState) (headerA headerB : Header)
    (hc : store.get clientId = some c) (hactive : c.frozen = false)
    (hev : isEquivocation reg c.consensusState headerA headerB = true) :
    (SubmitMisbehaviour reg store clientId headerA headerB).1 = .ok () ∧
    (SubmitMisbehaviour reg store clientId headerA headerB).2.get clientId =
      some { c with frozen := true } ∧
    (SubmitMisbehaviour reg (SubmitMisbehaviour reg store clientId headerA headerB).2
      clientId headerA headerB).1 = .ok () ∧
    (SubmitMisbehaviour reg (SubmitMisbehaviour reg store clientId headerA headerB).2
      clientId headerA headerB).2 =
      (SubmitMisbehaviour reg store clientId headerA headerB).2 := by
  have h1 : SubmitMisbehaviour reg store clientId headerA headerB =
      (.ok (), store.put clientId { c with frozen := true }) := by
    simp [SubmitMisbehaviour, hc, hactive, hev]
  have hg : (store.put clientId { c with frozen := true }).get clientId =
      some { c with frozen := true } := Map.get_put_self _ _ _
  have h2 : SubmitMisbehaviour reg (store.put clientId { c with frozen := true }) clientId
      headerA headerB = (.ok (), store.put clientId { c with frozen := true }) := by
    simp [SubmitMisbehaviour, hg, hev]
  rw [h1]
  refine ⟨rfl, hg, ?_, ?_⟩
  · show (SubmitMisbehaviour reg (store.put clientId { c with frozen := true }) clientId
      headerA headerB).1 = .ok ()
    rw [h2]
  · show (SubmitMisbehaviour reg (store.put clientId { c with frozen := true }) clientId
      headerA headerB).2 = store.put clientId { c with frozen := true }
    rw [h2]

/-- Witness of C12: the active client of Scenario 1 and two well-signed headers of height 2
with distinct roots. -/
theorem SubmitMisbehaviour_idempotent_witness :
    scenarioStore.get "chain-A" = some ⟨"chain-A", ⟨1, [0xAA], 0⟩, [(1, [0xAA])], false⟩ ∧
    (⟨"chain-A", ⟨1, [0xAA], 0⟩, [(1, [0xAA])], false⟩ : ClientState).frozen = false ∧
    isEquivocation sampleRegistry ⟨1, [0xAA], 0⟩ ⟨2, [1], none, [0xB1]⟩
      ⟨2, [1], none, [0xB2]⟩ = true ∧
    (SubmitMisbehaviour sampleRegistry scenarioStore "chain-A" ⟨2, [1], none, [0xB1]⟩
      ⟨2, [1], none, [0xB2]⟩).1 = .ok () ∧
    (SubmitMisbehaviour sampleRegistry scenarioStore "chain-A" ⟨2, [1], none, [0xB1]⟩
      ⟨2, [1], none, [0xB2]⟩).2.get "chain-A" =
      some ⟨"chain-A", ⟨1, [0xAA], 0⟩, [(1, [0xAA])], true⟩ ∧
    (SubmitMisbehaviour sampleRegistry
      (SubmitMisbehaviour sampleRegistry scenarioStore "chain-A" ⟨2, [1], none, [0xB1]⟩
        ⟨2, [1], none, [0xB2]⟩).2
      "chain-A" ⟨2, [1], none, [0xB1]⟩ ⟨2, [1], none, [0xB2]⟩).1 = .ok () ∧
    (SubmitMisbehaviour sampleRegistry
      (SubmitMisbehaviour sampleRegistry scenarioStore "chain-A" ⟨2, [1], none, [0xB1]⟩
        ⟨2, [1], none, [0xB2]⟩).2
      "chain-A" ⟨2, [1], none, [0xB1]⟩ ⟨2, [1], none, [0xB2]⟩).2 =
      (SubmitMisbehaviour sampleRegistry scenarioStore "chain-A" ⟨2, [1], none, [0xB1]⟩
        ⟨2, [1], none, [0xB2]⟩).2 :=
  ⟨rfl, rfl, rfl, SubmitMisbehaviour_idempotent sampleRegistry scenarioStore "chain-A"
    ⟨"chain-A", ⟨1, [0xAA], 0⟩, [(1, [0xAA])], false⟩ ⟨2, [1], none, [0xB1]⟩
    ⟨2, [1], none, [0xB2]⟩ rfl rfl rfl⟩

/-- C13 (stale headers are rejected).  For a consensus state of a registered kind that
requires strictly increasing heights, `validate` fails with `StaleHeaderError` whenever
`header.height <= consensusState.height`; and `UpdateClient` with such a header, on a client
whose latest consensus state it is, leaves the store unchanged and, the client being active,
returns `StaleHeaderError`. -/
theorem stale_header_rejected (reg : Registry) (cs : ConsensusState) (header : Header)
    (k : KindPredicates) (hk : reg cs.kind = some k) (hstrict : k.strictlyIncreasing = true)
    (hstale : header.height ≤ cs.height) :
    validate reg cs header = .error .StaleHeaderError ∧
    ∀ (store : Store) (clientId : ClientId) (c : ClientState),
      store.get clientId = some c → c.consensusState = cs →
      (UpdateClient reg store clientId header).2 = store ∧
      (c.frozen = false →
        (UpdateClient reg store clientId header).1 = .error .StaleHeaderError) := by
  have hv : validate reg cs header = .error .StaleHeaderError := by
    simp only [validate, hk]
    rw [if_pos ⟨hstrict, hstale⟩]
  refine ⟨hv, ?_⟩
  intro store clientId c hc hcs
  subst hcs
  have key : UpdateClient reg store clientId header =
      (.error (if c.frozen then .ClientFrozenError else .StaleHeaderError), store) := by
    simp only [UpdateClient, hc, hv]
    split <;> rfl
  rw [key]
  refine ⟨rfl, ?_⟩
  intro hf
  simp [hf]

/-- Witness of C13, Scenario 2 of §8: the client at height 1 and a header of height 1. -/
theorem stale_header_rejected_witness :
    sampleRegistry (⟨1, [0xAA], 0⟩ : ConsensusState).kind = some sampleKind ∧
    sampleKind.strictlyIncreasing = true ∧
    (⟨1, [1], none, [0xBB]⟩ : Header).height ≤ (⟨1, [0xAA], 0⟩ : ConsensusState).height ∧
    validate sampleRegistry ⟨1, [0xAA], 0⟩ ⟨1, [1], none, [0xBB]⟩ = .error .StaleHeaderError ∧
    (UpdateClient sampleRegistry scenarioStore "chain-A" ⟨1, [1], none, [0xBB]⟩).2 =
      scenarioStore ∧
    (UpdateClient sampleRegistry scenarioStore "chain-A" ⟨1, [1], none, [0xBB]⟩).1 =
      .error .StaleHeaderError :=
  ⟨rfl, rfl, Nat.le_refl 1,
    (stale_header_rejected sampleRegistry ⟨1, [0xAA], 0⟩ ⟨1, [1], none, [0xBB]⟩ sampleKind
      rfl rfl (Nat.le_refl 1)).1,
    ((stale_header_rejected sampleRegistry ⟨1, [0xAA], 0⟩ ⟨1, [1], none, [0xBB]⟩ sampleKind
      rfl rfl (Nat.le_refl 1)).2 scenarioStore "chain-A"
      ⟨"chain-A", ⟨1, [0xAA], 0⟩, [(1, [0xAA])], false⟩ rfl rfl).1,
    ((stale_header_rejected sampleRegistry ⟨1, [0xAA], 0⟩ ⟨1, [1], none, [0xBB]⟩ sampleKind
      rfl rfl (Nat.le_refl 1)).2 scenarioStore "chain-A"
      ⟨"chain-A", ⟨1, [0xAA], 0⟩, [(1, [0xAA])], false⟩ rfl rfl).2 rfl⟩

/-- C14.  `VerifyRoot(clientId, height, expectedRoot)` never changes the store; it succeeds
exactly when the client exists and `verifiedRoots` records `expectedRoot` at `height`,
whether the client is `Active` or `Frozen`; it fails with `ClientNotFoundError` for an unknown
client, with `RootNotFoundError` for a height that is not recorded, and with
`RootMismatchError` when the recorded root differs from `expectedRoot`. -/
theorem VerifyRoot_spec (store : Store) (clientId : ClientId) (height : Nat)
    (expectedRoot : CommitmentRoot) :
    (VerifyRoot store clientId height expectedRoot).2 = store ∧
    ((VerifyRoot store clientId height expectedRoot).1 = .ok () ↔
      ∃ c, store.get clientId = some c ∧ c.verifiedRoots.get height = some expectedRoot) ∧
    (store.get clientId = none →
      (VerifyRoot store clientId height expectedRoot).1 = .error .ClientNotFoundError) ∧
    (∀ c, store.get clientId = some c → c.verifiedRoots.get height = none →
      (VerifyRoot store clientId height expectedRoot).1 = .error .RootNotFoundError) ∧
    (∀ c root, store.get clientId = some c → c.verifiedRoots.get height = some root →
      root ≠ expectedRoot →
      (VerifyRoot store clientId height expectedRoot).1 = .error .RootMismatchError) := by
  unfold VerifyRoot
  cases hc : store.get clientId with
  | none => simp
  | some c =>
    cases hr : c.verifiedRoots.get height with
    | none =>
      simp only [hr, reduceCtorEq, false_iff, not_exists, not_and, false_implies, true_and,
        implies_true, and_true, Option.some.injEq]
      refine ⟨fun c1 h1 => by subst h1; simp [hr], ?_⟩
      intro c1 r h1 h2
      subst h1
      rw [hr] at h2
      cases h2
    | some root =>
      by_cases he : root = expectedRoot
      · subst he
        simp only [hr, if_true, Option.some.injEq, true_iff, reduceCtorEq, false_implies,
          true_and, implies_true]
        refine ⟨⟨c, rfl, hr⟩, ?_, ?_⟩
        · intro c1 h1 h2
          subst h1
          rw [hr] at h2
          cases h2
        · intro c1 r h1 h2 h3
          subst h1
          rw [hr] at h2
          cases h2
          exact absurd rfl h3
      · simp [hr, he]

/-- Witness of C14, Scenarios 3 and 4 of §8 on the frozen client: the recorded root of height 5
is verified, an unknown client, an unrecorded height and a wrong root give their errors. -/
theorem VerifyRoot_spec_witness :
    (VerifyRoot frozenStore "chain-A" 5 [0xAA]).1 = .ok () ∧
    (VerifyRoot frozenStore "chain-B" 5 [0xAA]).1 = .error .ClientNotFoundError ∧
    (VerifyRoot frozenStore "chain-A" 3 [0xAA]).1 = .error .RootNotFoundError ∧
    (VerifyRoot frozenStore "chain-A" 5 [0xAB]).1 = .error .RootMismatchError :=
  ⟨(VerifyRoot_spec frozenStore "chain-A" 5 [0xAA]).2.1.mpr
      ⟨⟨"chain-A", ⟨5, [0xAA], 0⟩, [(1, [0xA1]), (5, [0xAA])], true⟩, rfl, rfl⟩,
    (VerifyRoot_spec frozenStore "chain-B" 5 [0xAA]).2.2.1 rfl,
    (VerifyRoot_spec frozenStore "chain-A" 3 [0xAA]).2.2.2.1
      ⟨"chain-A", ⟨5, [0xAA], 0⟩, [(1, [0xA1]), (5, [0xAA])], true⟩ rfl rfl,
    (VerifyRoot_spec frozenStore "chain-A" 5 [0xAB]).2.2.2.2
      ⟨"chain-A", ⟨5, [0xAA], 0⟩, [(1, [0xA1]), (5, [0xAA])], true⟩ [0xAA] rfl rfl
      (by decide)⟩

end IBC
